import Mathlib

/-!
Verification of the LocalShare WebRTC file-sharing core.

This development shallowly embeds the data model and operations of the
LocalShare repository and proves properties of them:

* the chunked file-transfer engine
  (src/lib/webRTC/manager/file-transfer.ts, class FileTransferManager);
* the signaling reconnection state machine
  (src/lib/webRTC/manager/signaling.ts, class SignalingManager);
* the relay-side room registry
  (server services, class RoomService);
* the backpressure loop of the chunked sender
  (src/lib/webRTC/manager/webRTC.ts, WebRTCManager.sendFileInChunks);
* the event-emitter exception barrier shared by the three managers.

Byte buffers (ArrayBuffer / Uint8Array) are modelled as `List Nat`;
JavaScript `Map` objects are modelled as association lists that keep
insertion order, which is exactly the iteration order `Map.prototype.forEach`
and `Map.prototype.values` guarantee.  Wall-clock fields (startTime,
lastProgressTime) are dropped: no verified property reads them.
-/

namespace JsMap

/-- Lookup in a JavaScript Map modelled as an insertion-ordered
association list (`Map.prototype.get`). -/
def find? {K V : Type} [DecidableEq K] : List (K × V) → K → Option V
  | [], _ => none
  | (k, v) :: rest, key => if k = key then some v else find? rest key

/-- JavaScript `Map.prototype.set`: replace the value in place when the key
is present (the entry keeps its position), otherwise append a new entry. -/
def set {K V : Type} [DecidableEq K] (m : List (K × V)) (key : K) (v : V) :
    List (K × V) :=
  match m with
  | [] => [(key, v)]
  | (k, w) :: rest =>
    if k = key then (k, v) :: rest else (k, w) :: set rest key v

/-- JavaScript `Map.prototype.delete`: remove the entry for the key, if any. -/
def erase {K V : Type} [DecidableEq K] : List (K × V) → K → List (K × V)
  | [], _ => []
  | (k, v) :: rest, key => if k = key then rest else (k, v) :: erase rest key

/-- The keys of the map, in insertion order. -/
def keys {K V : Type} (m : List (K × V)) : List K := m.map Prod.fst

/-- JavaScript `Map.prototype.has`. -/
def contains {K V : Type} [DecidableEq K] (m : List (K × V)) (key : K) : Bool :=
  (find? m key).isSome

@[simp] theorem keys_nil {K V : Type} : keys ([] : List (K × V)) = [] := rfl

@[simp] theorem keys_cons {K V : Type} (k : K) (v : V) (m : List (K × V)) :
    keys ((k, v) :: m) = k :: keys m := rfl

@[simp] theorem keys_append {K V : Type} (m m' : List (K × V)) :
    keys (m ++ m') = keys m ++ keys m' := by simp [keys]

theorem find?_set_self {K V : Type} [DecidableEq K]
    (m : List (K × V)) (key : K) (v : V) : find? (set m key v) key = some v := by
  induction m with
  | nil => simp [set, find?]
  | cons hd tl ih =>
    obtain ⟨k, w⟩ := hd
    by_cases h : k = key <;> simp [set, find?, h, ih]

theorem keys_set_of_mem {K V : Type} [DecidableEq K]
    (m : List (K × V)) (key : K) (v : V) (h : key ∈ keys m) :
    keys (set m key v) = keys m := by
  induction m with
  | nil => simp at h
  | cons hd tl ih =>
    obtain ⟨k, w⟩ := hd
    by_cases hk : k = key
    · simp [set, hk]
    · have h' : key ∈ keys tl := by
        simp at h
        rcases h with h | h
        · exact absurd h.symm hk
        · exact h
      simp [set, hk, ih h']

theorem keys_set {K V : Type} [DecidableEq K]
    (m : List (K × V)) (key : K) (v : V) :
    keys (set m key v) = keys m ∨ keys (set m key v) = keys m ++ [key] := by
  induction m with
  | nil => right; simp [set]
  | cons hd tl ih =>
    obtain ⟨k, w⟩ := hd
    by_cases hk : k = key
    · left; simp [set, hk]
    · rcases ih with ih | ih
      · left; simp [set, hk, ih]
      · right; simp [set, hk, ih]

theorem set_of_not_mem {K V : Type} [DecidableEq K]
    (m : List (K × V)) (key : K) (v : V) (h : key ∉ keys m) :
    set m key v = m ++ [(key, v)] := by
  induction m with
  | nil => simp [set]
  | cons hd tl ih =>
    obtain ⟨k, w⟩ := hd
    have hk : k ≠ key := by
      intro he; exact h (by simp [he])
    have htl : key ∉ keys tl := fun hm => h (by simp; right; exact hm)
    simp [set, hk, ih htl]

theorem find?_eq_none_of_not_mem {K V : Type} [DecidableEq K]
    (m : List (K × V)) (key : K) (h : key ∉ keys m) : find? m key = none := by
  induction m with
  | nil => rfl
  | cons hd tl ih =>
    obtain ⟨k, w⟩ := hd
    have hk : k ≠ key := by intro he; exact h (by simp [he])
    have htl : key ∉ keys tl := fun hm => h (by simp; right; exact hm)
    simp [find?, hk, ih htl]

theorem not_mem_keys_erase {K V : Type} [DecidableEq K]
    (m : List (K × V)) (key : K) (h : (keys m).count key ≤ 1) :
    key ∉ keys (erase m key) := by
  induction m with
  | nil => simp [erase]
  | cons hd tl ih =>
    obtain ⟨k, w⟩ := hd
    by_cases hk : k = key
    · subst hk
      simp [List.count_cons] at h
      intro hm
      simp [erase] at hm
      have : 0 < (keys tl).count k := List.count_pos_iff.mpr hm
      omega
    · simp [List.count_cons, hk] at h
      intro hm
      simp [erase, hk] at hm
      rcases hm with hm | hm
      · exact hk hm.symm
      · exact ih h hm

end JsMap

namespace FileTransfer

/-- File-transfer status enum (typings/file-transfer.ts, FileTransferStatus). -/
inductive FileTransferStatus : Type
  | PENDING
  | PREPARING
  | TRANSFERRING
  | PAUSED
  | COMPLETED
  | FAILED
  | CANCELLED
  deriving DecidableEq, Repr

/-- File-transfer configuration (typings/file-transfer.ts, FileTransferConfig). -/
structure FileTransferConfig : Type where
  chunkSize : Nat
  maxConcurrentTransfers : Nat
  enableChecksum : Bool
  retryAttempts : Nat
  retryDelay : Nat
  deriving DecidableEq, Repr

/-- Default configuration (file-transfer.ts 29-35, DEFAULT_CONFIG):
64 KiB chunks, 3 concurrent transfers, checksums on. -/
def DEFAULT_CONFIG : FileTransferConfig :=
  { chunkSize := 64 * 1024
    maxConcurrentTransfers := 3
    enableChecksum := true
    retryAttempts := 3
    retryDelay := 1000 }

/-- A file chunk (typings/file-transfer.ts, FileChunk).  The ArrayBuffer
payload is a byte list; the checksum is kept as the numeric value whose
hexadecimal rendering the code stores (rendering is injective, so equality
of checksums is preserved). -/
structure FileChunk : Type where
  id : String
  index : Nat
  data : List Nat
  size : Nat
  checksum : Option Nat
  deriving DecidableEq, Repr

/-- Fallback checksum of calculateChecksum (file-transfer.ts 266-272): the
byte sum modulo 0xffffffff.  The primary SHA-256 path goes through the
external Web Crypto capability and is outside the embedding; every
in-repository computation uses this fallback, and only equality of
checksums is ever relevant. -/
def calculateChecksum (data : List Nat) : Nat :=
  data.foldl (fun acc b => (acc + b) % 0xffffffff) 0

/-- Number of chunks computed by sendFile (file-transfer.ts 191):
Math.ceil(file.size / chunkSize), which on naturals is ceiling division. -/
def totalChunksOf (size chunkSize : Nat) : Nat := size ⌈/⌉ chunkSize

/-- Chunk construction of prepareFileChunks (file-transfer.ts 227-246):
chunk i holds the bytes of file.slice(i * chunkSize,
min((i + 1) * chunkSize, size)); its size field is the payload length, and
the checksum is filled in exactly when the configuration enables it. -/
def prepareFileChunks (cfg : FileTransferConfig) (fileId : String)
    (bytes : List Nat) : List FileChunk :=
  (List.range (totalChunksOf bytes.length cfg.chunkSize)).map (fun i =>
    let start := i * cfg.chunkSize
    let stop := min (start + cfg.chunkSize) bytes.length
    let data := (bytes.drop start).take (stop - start)
    { id := fileId ++ "-" ++ toString i
      index := i
      data := data
      size := data.length
      checksum := if cfg.enableChecksum then some (calculateChecksum data) else none })

theorem totalChunksOf_eq (size chunkSize : Nat) :
    totalChunksOf size chunkSize = (size + chunkSize - 1) / chunkSize := rfl

theorem prepareFileChunks_length (cfg : FileTransferConfig) (fileId : String)
    (bytes : List Nat) :
    (prepareFileChunks cfg fileId bytes).length =
      totalChunksOf bytes.length cfg.chunkSize := by
  simp [prepareFileChunks]

/-- Ceiling division unfolded through Euclidean division: it equals the
quotient when the remainder vanishes and one more otherwise. -/
theorem ceilDiv_eq_div_add (S C : Nat) (hC : 0 < C) :
    S ⌈/⌉ C = S / C + (if S % C = 0 then 0 else 1) := by
  rw [Nat.ceilDiv_eq_add_pred_div]
  obtain ⟨q, r, hr, rfl⟩ : ∃ q r, r < C ∧ S = C * q + r :=
    ⟨S / C, S % C, Nat.mod_lt S hC, (Nat.div_add_mod S C).symm⟩
  have e3 : (C * q + r) / C = q + r / C := Nat.mul_add_div hC q r
  have e4 : (C * q + r) % C = r % C := by rw [Nat.mul_add_mod]
  by_cases h0 : r = 0
  · subst h0
    have h1 : C * q + 0 + C - 1 = C * q + (C - 1) := by omega
    rw [h1, Nat.mul_add_div hC, Nat.div_eq_of_lt (by omega : C - 1 < C), e3, e4]
    simp
  · have hC1 : C * (q + 1) = C * q + C := by ring
    have h1 : C * q + r + C - 1 = C * (q + 1) + (r - 1) := by omega
    rw [h1, Nat.mul_add_div hC, Nat.div_eq_of_lt (by omega : r - 1 < C), e3, e4,
      Nat.div_eq_of_lt hr, Nat.mod_eq_of_lt hr]
    simp [h0]

theorem ceilDiv_pos (S C : Nat) (hC : 0 < C) (hS : 0 < S) : 0 < S ⌈/⌉ C := by
  by_contra h
  have hle : S ⌈/⌉ C ≤ 0 := by omega
  have h2 : S ≤ C * 0 := by
    have := (ceilDiv_le_iff_le_mul hC).mp hle
    simpa using this
  omega

theorem lt_total_mul (S C i : Nat) (hC : 0 < C)
    (hi : i < totalChunksOf S C) : i * C < S := by
  by_contra h
  have hSle : S ≤ C * i := by rw [Nat.mul_comm]; omega
  have : totalChunksOf S C ≤ i := by
    rw [totalChunksOf]
    exact (ceilDiv_le_iff_le_mul hC).mpr hSle
  omega

theorem le_total_mul (S C : Nat) (hC : 0 < C) :
    S ≤ totalChunksOf S C * C := by
  have := le_smul_ceilDiv (b := S) hC
  rw [smul_eq_mul] at this
  rw [totalChunksOf, Nat.mul_comm]
  exact this

/-- The slice taken for a chunk that starts inside the file equals a plain
take of the chunk size: List.take clamps at the end of the buffer just as
file.slice does. -/
theorem slice_take_eq (bytes : List Nat) (s C : Nat) (hs : s ≤ bytes.length) :
    (bytes.drop s).take (min (s + C) bytes.length - s) = (bytes.drop s).take C := by
  apply List.take_eq_take.mpr
  simp [List.length_drop]
  omega

/-- Recurrence for the chunk count: a nonempty file has one chunk for its
first chunkSize bytes plus the chunks of the rest. -/
theorem totalChunksOf_succ (S C : Nat) (hC : 0 < C) (hS : 0 < S) :
    totalChunksOf S C = totalChunksOf (S - C) C + 1 := by
  rw [totalChunksOf, totalChunksOf, Nat.ceilDiv_eq_add_pred_div,
    Nat.ceilDiv_eq_add_pred_div]
  by_cases h : S ≤ C
  · have h1 : S - C = 0 := by omega
    have h2 : (S + C - 1) / C = 1 := by
      apply Nat.div_eq_of_lt_le <;> omega
    have h3 : (0 + C - 1) / C = 0 := Nat.div_eq_of_lt (by omega)
    rw [h1, h2, h3]
  · have h1 : S + C - 1 = (S - C + C - 1) + C := by omega
    rw [h1, Nat.add_div_right _ hC]

/-- Concatenating the chunkSize-sized slices of a byte list, in index
order, recovers the byte list. -/
theorem flatten_slices (C : Nat) (hC : 0 < C) (bytes : List Nat) :
    ((List.range (totalChunksOf bytes.length C)).map
      (fun i => (bytes.drop (i * C)).take C)).flatten = bytes := by
  suffices h : ∀ (S : Nat) (bytes : List Nat), bytes.length = S →
      ((List.range (totalChunksOf bytes.length C)).map
        (fun i => (bytes.drop (i * C)).take C)).flatten = bytes from
    h bytes.length bytes rfl
  intro S
  induction S using Nat.strong_induction_on with
  | _ S ih =>
  intro bytes hS
  subst hS
  rcases Nat.eq_zero_or_pos bytes.length with h0 | h0
  · have hb : bytes = [] := List.length_eq_zero.mp h0
    subst hb
    simp [totalChunksOf]
  · rw [totalChunksOf_succ _ _ hC h0, List.range_succ_eq_map]
    simp only [List.map_cons, List.map_map, List.flatten_cons]
    have htail : ((List.range (totalChunksOf (bytes.length - C) C)).map
        (fun i => ((bytes.drop C).drop (i * C)).take C)).flatten = bytes.drop C := by
      have hlen : (bytes.drop C).length = bytes.length - C := List.length_drop C bytes
      have := ih (bytes.length - C) (by omega) (bytes.drop C) hlen
      rw [hlen] at this
      exact this
    have hfun : ((fun i => (bytes.drop (i * C)).take C) ∘ (· + 1)) =
        (fun i => ((bytes.drop C).drop (i * C)).take C) := by
      funext i
      simp [List.drop_drop, Nat.succ_mul, Nat.add_comm]
    rw [hfun, htail]
    simp

/-- Size of the final chunk: the file length reduced by the start of the
last chunk, expressed through the remainder. -/
theorem last_chunk_size (S C : Nat) (hC : 0 < C) (hS : 0 < S) :
    S - (totalChunksOf S C - 1) * C = if S % C = 0 then C else S % C := by
  by_cases h0 : S % C = 0
  · have hq : S = C * (S / C) := by
      have := Nat.div_add_mod S C; omega
    have hn : totalChunksOf S C = S / C := by
      rw [totalChunksOf, ceilDiv_eq_div_add _ _ hC, h0]; simp
    have hq1 : 1 ≤ S / C := by
      rcases Nat.eq_zero_or_pos (S / C) with h | h
      · rw [h, Nat.mul_zero] at hq; omega
      · exact h
    rw [hn, if_pos h0]
    have hsub : (S / C - 1) * C = S / C * C - C := by
      rw [Nat.sub_mul, Nat.one_mul]
    have hCq : C ≤ S / C * C := Nat.le_mul_of_pos_left C hq1
    have hqc : S / C * C = C * (S / C) := Nat.mul_comm _ _
    omega
  · have hn : totalChunksOf S C = S / C + 1 := by
      rw [totalChunksOf, ceilDiv_eq_div_add _ _ hC, if_neg h0]
    rw [hn, if_neg h0]
    have hdm := Nat.div_add_mod S C
    have hqc : (S / C + 1 - 1) * C = C * (S / C) := by
      rw [Nat.add_sub_cancel, Nat.mul_comm]
    have hmod : S % C < C := Nat.mod_lt S hC
    omega

theorem prepareFileChunks_map_data (cfg : FileTransferConfig) (fileId : String)
    (bytes : List Nat) :
    (prepareFileChunks cfg fileId bytes).map FileChunk.data =
      (List.range (totalChunksOf bytes.length cfg.chunkSize)).map
        (fun i => (bytes.drop (i * cfg.chunkSize)).take
          (min (i * cfg.chunkSize + cfg.chunkSize) bytes.length
            - i * cfg.chunkSize)) := by
  simp [prepareFileChunks, List.map_map]

theorem prepareFileChunks_map_size (cfg : FileTransferConfig) (fileId : String)
    (bytes : List Nat) :
    (prepareFileChunks cfg fileId bytes).map FileChunk.size =
      (List.range (totalChunksOf bytes.length cfg.chunkSize)).map
        (fun i => ((bytes.drop (i * cfg.chunkSize)).take
          (min (i * cfg.chunkSize + cfg.chunkSize) bytes.length
            - i * cfg.chunkSize)).length) := by
  simp [prepareFileChunks, List.map_map]

/-- C1: sendFile prepares a file of size S under chunk size C as exactly
ceil(S / C) chunks (file-transfer.ts 191, 227-246); chunk i carries
precisely the bytes of the half-open range [i * C, min((i + 1) * C, S)); the
chunks concatenated in index order are the whole file; and the final chunk
has size S mod C, or C when C divides S evenly. -/
theorem sendFile_chunk_partition (cfg : FileTransferConfig) (fileId : String)
    (bytes : List Nat) (hC : 0 < cfg.chunkSize) :
    (prepareFileChunks cfg fileId bytes).length =
        totalChunksOf bytes.length cfg.chunkSize
    ∧ (∀ i, i < totalChunksOf bytes.length cfg.chunkSize →
        ((prepareFileChunks cfg fileId bytes).map FileChunk.data)[i]? =
          some ((bytes.drop (i * cfg.chunkSize)).take
            (min ((i + 1) * cfg.chunkSize) bytes.length - i * cfg.chunkSize)))
    ∧ ((prepareFileChunks cfg fileId bytes).map FileChunk.data).flatten = bytes
    ∧ (0 < bytes.length →
        ((prepareFileChunks cfg fileId bytes).map FileChunk.size)[
            totalChunksOf bytes.length cfg.chunkSize - 1]? =
          some (if bytes.length % cfg.chunkSize = 0 then cfg.chunkSize
                else bytes.length % cfg.chunkSize)) := by
  set C := cfg.chunkSize with hCdef
  set S := bytes.length with hSdef
  set n := totalChunksOf S C with hndef
  refine ⟨prepareFileChunks_length cfg fileId bytes, ?_, ?_, ?_⟩
  · intro i hi
    rw [prepareFileChunks_map_data, List.getElem?_map, List.getElem?_range hi]
    simp only [Option.map_some']
    congr 2
    rw [Nat.succ_mul]
  · rw [prepareFileChunks_map_data]
    have hcong : (List.range n).map
        (fun i => (bytes.drop (i * C)).take (min (i * C + C) S - i * C)) =
        (List.range n).map (fun i => (bytes.drop (i * C)).take C) := by
      apply List.map_congr_left
      intro i hi
      have hi' : i < n := List.mem_range.mp hi
      have hs : i * C ≤ S := Nat.le_of_lt (lt_total_mul S C i hC (hndef ▸ hi'))
      exact slice_take_eq bytes (i * C) C hs
    rw [hcong]
    exact flatten_slices C hC bytes
  · intro hS
    have hn0 : 0 < n := ceilDiv_pos S C hC hS
    have hlt : n - 1 < n := by omega
    rw [prepareFileChunks_map_size, List.getElem?_map, List.getElem?_range hlt]
    simp only [Option.map_some']
    congr 1
    have hstart : (n - 1) * C < S := lt_total_mul S C (n - 1) hC (hndef ▸ hlt)
    have hcover : S ≤ n * C := (hndef ▸ le_total_mul S C hC : S ≤ n * C)
    have hnC : (n - 1) * C + C = n * C := by
      have : (n - 1) * C = n * C - C := by rw [Nat.sub_mul, Nat.one_mul]
      have hCle : C ≤ n * C := Nat.le_mul_of_pos_left C hn0
      omega
    have hmin : min ((n - 1) * C + C) S = S := by
      rw [hnC]; omega
    rw [List.length_take, List.length_drop, hmin]
    have : min (S - (n - 1) * C) (S - (n - 1) * C) = S - (n - 1) * C := by omega
    rw [this]
    exact last_chunk_size S C hC hS

/-- Witness for the chunking theorem: a 5-byte file under 2-byte chunks has
3 chunks, covering slices [0,2), [2,4), [4,5), whose concatenation is the
file, with a final chunk of size 5 mod 2 = 1. -/
theorem sendFile_chunk_partition_witness :
    0 < (FileTransferConfig.mk 2 3 true 3 1000).chunkSize ∧
    ((prepareFileChunks (FileTransferConfig.mk 2 3 true 3 1000) "f"
        [10, 11, 12, 13, 14]).length = totalChunksOf 5 2
    ∧ (∀ i, i < totalChunksOf 5 2 →
        ((prepareFileChunks (FileTransferConfig.mk 2 3 true 3 1000) "f"
            [10, 11, 12, 13, 14]).map FileChunk.data)[i]? =
          some (([10, 11, 12, 13, 14].drop (i * 2)).take
            (min ((i + 1) * 2) 5 - i * 2)))
    ∧ ((prepareFileChunks (FileTransferConfig.mk 2 3 true 3 1000) "f"
        [10, 11, 12, 13, 14]).map FileChunk.data).flatten = [10, 11, 12, 13, 14]
    ∧ (0 < (5 : Nat) →
        ((prepareFileChunks (FileTransferConfig.mk 2 3 true 3 1000) "f"
            [10, 11, 12, 13, 14]).map FileChunk.size)[totalChunksOf 5 2 - 1]? =
          some (if (5 : Nat) % 2 = 0 then 2 else 5 % 2))) :=
  ⟨by decide,
    sendFile_chunk_partition (FileTransferConfig.mk 2 3 true 3 1000) "f"
      [10, 11, 12, 13, 14] (by decide)⟩

/-- A transferring file (typings/file-transfer.ts, TransferringFile).  The
File object is modelled by its name, MIME type and byte content; the two
wall-clock timestamps are omitted (no verified property reads them). -/
structure TransferringFile : Type where
  id : String
  fileName : String
  fileType : String
  fileBytes : List Nat
  chunks : List FileChunk
  receivedChunks : List (Nat × FileChunk)
  totalChunks : Nat
  status : FileTransferStatus
  transferredSize : Nat
  retryCount : Nat
  deriving DecidableEq, Repr

/-- Events emitted by the FileTransferManager
(typings/file-transfer.ts, FileTransferEvents).  The progress payload is
reduced to the transferred size; failed carries the Error message text. -/
inductive FTEvent : Type
  | progress (fileId : String) (transferredSize : Nat)
  | completed (fileId : String) (fileBytes : List Nat)
  | failed (fileId : String) (message : String)
  | cancelled (fileId : String)
  | chunkReceived (fileId : String) (chunkIndex : Nat)
  | chunkSent (fileId : String) (chunkIndex : Nat)
  deriving DecidableEq, Repr

/-- Control messages the manager sends over the data channel
(file-transfer.ts 278-290, 329-333, 366-373, 441-444). -/
inductive CtrlMsg : Type
  | fileInfo (fileId fileName : String) (fileSize totalChunks chunkSize : Nat)
      (enableChecksum : Bool)
  | chunkRequest (fileId : String) (chunkIndex : Nat)
  | chunkHeader (fileId chunkId : String) (chunkIndex chunkSize : Nat)
      (checksum : Option Nat)
  | transferComplete (fileId : String)
  | transferError (fileId : String) (error : String)
  deriving DecidableEq, Repr

/-- Mutable transfer state of a FileTransferManager
(file-transfer.ts 23-26): the two transfer tables, the FIFO queue of
pending sends, and the active-transfer counter. -/
structure FTState : Type where
  sendingFiles : List (String × TransferringFile)
  receivingFiles : List (String × TransferringFile)
  transferQueue : List String
  activeTransfers : Nat
  deriving DecidableEq, Repr

/-- The freshly constructed manager state (file-transfer.ts 23-26). -/
def FTState.initial : FTState :=
  { sendingFiles := [], receivingFiles := [], transferQueue := [], activeTransfers := 0 }

/-- Loop body of processTransferQueue (file-transfer.ts 546-556) together
with the inlined startTransfer (561-569): while the queue is nonempty and
a concurrency slot is free, shift the head id; when it names a sending
file, mark it TRANSFERRING and take a slot, otherwise skip it. -/
def processQueueGo (maxConc : Nat) :
    List String → List (String × TransferringFile) → Nat →
      List String × List (String × TransferringFile) × Nat
  | [], sending, active => ([], sending, active)
  | fileId :: rest, sending, active =>
    if active < maxConc then
      match JsMap.find? sending fileId with
      | some tf =>
        processQueueGo maxConc rest
          (JsMap.set sending fileId { tf with status := .TRANSFERRING }) (active + 1)
      | none => processQueueGo maxConc rest sending active
    else (fileId :: rest, sending, active)

/-- processTransferQueue (file-transfer.ts 546-556). -/
def processTransferQueue (maxConc : Nat) (s : FTState) : FTState :=
  let r := processQueueGo maxConc s.transferQueue s.sendingFiles s.activeTransfers
  { s with transferQueue := r.1, sendingFiles := r.2.1, activeTransfers := r.2.2 }

/-- Uint8Array.set: overwrite the buffer from the given offset with the
payload (reconstructFile writes only in bounds, where this is the exact
semantics). -/
def bufWrite (buf : List Nat) (off : Nat) (data : List Nat) : List Nat :=
  buf.take off ++ data ++ buf.drop (off + data.length)

/-- reconstructFile (file-transfer.ts 459-478): take the stored chunk
values, sort them ascending by index (Array.prototype.sort with comparator
a.index - b.index; stable, as TimSort is), allocate a buffer of the summed
size fields, and copy each chunk at the running offset advanced by its
size field. -/
def reconstructBytes (receivedChunks : List (Nat × FileChunk)) : List Nat :=
  let chunks := (receivedChunks.map Prod.snd).mergeSort
    (fun a b => a.index ≤ b.index)
  let totalSize := (chunks.map FileChunk.size).sum
  (chunks.foldl (fun acc c => (bufWrite acc.1 acc.2 c.data, acc.2 + c.size))
    (List.replicate totalSize 0, 0)).1

/-- handleFileChunk (file-transfer.ts 393-397): the binary-chunk handler
only logs the payload byte length.  Its own comment records that a real
implementation would have to match the payload against the pending
chunk-header and maintain a queue of expected chunks; none of that exists,
so the state is untouched, no event fires and no control message is sent,
whatever the payload. -/
def handleFileChunk (s : FTState) (_data : List Nat) :
    FTState × List FTEvent × List CtrlMsg :=
  (s, [], [])

/-- handleFileInfo (file-transfer.ts 312-334): a file-info control message
creates a receiving entry in PENDING state and immediately requests
chunk 0. -/
def handleFileInfo (s : FTState) (fileId fileName fileType : String)
    (tc : Nat) : FTState × List CtrlMsg :=
  let tf : TransferringFile :=
    { id := fileId, fileName := fileName, fileType := fileType, fileBytes := []
      chunks := [], receivedChunks := [], totalChunks := tc
      status := .PENDING, transferredSize := 0, retryCount := 0 }
  ({ s with receivingFiles := JsMap.set s.receivingFiles fileId tf },
    [CtrlMsg.chunkRequest fileId 0])

/-- completeTransfer (file-transfer.ts 430-454): on the sender side delete
the entry and send a transfer-complete message; on the receiver side
rebuild the file from the stored chunks, delete the entry and emit
completed.  Either way the active counter drops and the queue is
reprocessed.  The JavaScript decrement is unfloored; truncated subtraction
is adequate because no verified property examines a state whose JavaScript
counter would be negative. -/
def completeTransfer (maxConc : Nat) (s : FTState) (fileId : String)
    (isSender : Bool) : FTState × List FTEvent × List CtrlMsg :=
  match (if isSender then JsMap.find? s.sendingFiles fileId
         else JsMap.find? s.receivingFiles fileId) with
  | none => (s, [], [])
  | some tf =>
    if isSender then
      let s1 := { s with sendingFiles := JsMap.erase s.sendingFiles fileId
                         activeTransfers := s.activeTransfers - 1 }
      (processTransferQueue maxConc s1, [], [CtrlMsg.transferComplete fileId])
    else
      let fileBytes := reconstructBytes tf.receivedChunks
      let s1 := { s with receivingFiles := JsMap.erase s.receivingFiles fileId
                         activeTransfers := s.activeTransfers - 1 }
      (processTransferQueue maxConc s1, [FTEvent.completed fileId fileBytes], [])

/-- handleTransferComplete (file-transfer.ts 423-425): the sender telling
us the transfer is done completes the receiving side. -/
def handleTransferComplete (maxConc : Nat) (s : FTState) (fileId : String) :
    FTState × List FTEvent × List CtrlMsg :=
  completeTransfer maxConc s fileId false

/-- handleDataChannelClose (file-transfer.ts 491-507): mark every sending
and then every receiving transfer FAILED, emitting failed for each in
table order, then clear both tables, empty the queue and zero the active
counter. -/
def handleDataChannelClose (s : FTState) : FTState × List FTEvent :=
  let evs :=
    s.sendingFiles.map (fun kv => FTEvent.failed kv.1 "Data channel closed") ++
    s.receivingFiles.map (fun kv => FTEvent.failed kv.1 "Data channel closed")
  ({ s with sendingFiles := [], receivingFiles := [], transferQueue := []
            activeTransfers := 0 }, evs)

/-- setDataChannel (file-transfer.ts 109-133): stores the channel handle
and installs its handlers; it never touches the transfer tables, the queue
or the counter, so on the transfer-state projection it is the identity. -/
def setDataChannel (s : FTState) : FTState := s

/-- cancelTransfer (file-transfer.ts 574-598): delete the id from either
table (emitting cancelled per table hit), splice the first occurrence of
the id out of the queue, lower the active counter with a floor of zero
(Math.max(0, n - 1), which is truncated subtraction on Nat), and reprocess
the queue. -/
def cancelTransfer (cfg : FileTransferConfig) (s : FTState) (fileId : String) :
    FTState × List FTEvent :=
  let sendingFile := JsMap.find? s.sendingFiles fileId
  let receivingFile := JsMap.find? s.receivingFiles fileId
  let (sending1, evs1) :=
    match sendingFile with
    | some _ => (JsMap.erase s.sendingFiles fileId, [FTEvent.cancelled fileId])
    | none => (s.sendingFiles, [])
  let (receiving1, evs2) :=
    match receivingFile with
    | some _ => (JsMap.erase s.receivingFiles fileId, [FTEvent.cancelled fileId])
    | none => (s.receivingFiles, [])
  let queue1 := s.transferQueue.erase fileId
  let s1 : FTState :=
    { sendingFiles := sending1, receivingFiles := receiving1
      transferQueue := queue1, activeTransfers := s.activeTransfers - 1 }
  (processTransferQueue cfg.maxConcurrentTransfers s1, evs1 ++ evs2)

theorem processQueueGo_keys (maxConc : Nat) (q : List String)
    (sending : List (String × TransferringFile)) (active : Nat) :
    JsMap.keys (processQueueGo maxConc q sending active).2.1 =
      JsMap.keys sending := by
  induction q generalizing sending active with
  | nil => simp [processQueueGo]
  | cons fileId rest ih =>
    by_cases h : active < maxConc
    · cases hf : JsMap.find? sending fileId with
      | none => simp [processQueueGo, h, hf, ih]
      | some tf =>
        have hmem : fileId ∈ JsMap.keys sending := by
          clear ih h
          induction sending with
          | nil => simp [JsMap.find?] at hf
          | cons hd tl ihs =>
            obtain ⟨k, w⟩ := hd
            by_cases hk : k = fileId
            · simp [hk]
            · simp [JsMap.find?, hk] at hf
              simp [ihs hf]
        simp [processQueueGo, h, hf, ih, JsMap.keys_set_of_mem _ _ _ hmem]
    · simp [processQueueGo, h]

theorem processQueueGo_queue_mem (maxConc : Nat) (q : List String)
    (sending : List (String × TransferringFile)) (active : Nat) :
    ∀ x ∈ (processQueueGo maxConc q sending active).1, x ∈ q := by
  induction q generalizing sending active with
  | nil => simp [processQueueGo]
  | cons fileId rest ih =>
    intro x hx
    by_cases h : active < maxConc
    · cases hf : JsMap.find? sending fileId with
      | none =>
        simp only [processQueueGo, if_pos h, hf] at hx
        exact List.mem_cons_of_mem _ (ih _ _ x hx)
      | some tf =>
        simp only [processQueueGo, if_pos h, hf] at hx
        exact List.mem_cons_of_mem _ (ih _ _ x hx)
    · simp only [processQueueGo, if_neg h] at hx
      exact hx

theorem find?_some_mem_keys {K V : Type} [DecidableEq K]
    (m : List (K × V)) (key : K) (v : V)
    (h : JsMap.find? m key = some v) : key ∈ JsMap.keys m := by
  induction m with
  | nil => simp [JsMap.find?] at h
  | cons hd tl ih =>
    obtain ⟨k, w⟩ := hd
    by_cases hk : k = key
    · simp [hk]
    · simp [JsMap.find?, hk] at h
      simp [ih h]

theorem find?_none_not_mem_keys {K V : Type} [DecidableEq K]
    (m : List (K × V)) (key : K)
    (h : JsMap.find? m key = none) : key ∉ JsMap.keys m := by
  intro hmem
  induction m with
  | nil => simp at hmem
  | cons hd tl ih =>
    obtain ⟨k, w⟩ := hd
    by_cases hk : k = key
    · simp [JsMap.find?, hk] at h
    · simp [JsMap.find?, hk] at h
      simp [hk] at hmem
      rcases hmem with hmem | hmem
      · exact hk hmem.symm
      · exact ih h hmem

/-- C8: when the data channel closes, every outstanding sending and
receiving transfer is failed with exactly one failed event each (in table
order), the two tables and the pending queue end empty with a zeroed
active counter, and attaching a replacement channel (setDataChannel) and
reprocessing the queue puts no transfer back in flight. -/
theorem close_fails_every_transfer (cfg : FileTransferConfig) (s : FTState) :
    (handleDataChannelClose s).1.sendingFiles = []
    ∧ (handleDataChannelClose s).1.receivingFiles = []
    ∧ (handleDataChannelClose s).1.transferQueue = []
    ∧ (handleDataChannelClose s).1.activeTransfers = 0
    ∧ (handleDataChannelClose s).2.length =
        s.sendingFiles.length + s.receivingFiles.length
    ∧ (∀ fileId,
        ((handleDataChannelClose s).2.count
            (FTEvent.failed fileId "Data channel closed")) =
          (JsMap.keys s.sendingFiles).count fileId
            + (JsMap.keys s.receivingFiles).count fileId)
    ∧ (∀ e ∈ (handleDataChannelClose s).2,
        ∃ fileId, e = FTEvent.failed fileId "Data channel closed")
    ∧ processTransferQueue cfg.maxConcurrentTransfers
        (setDataChannel (handleDataChannelClose s).1) =
      setDataChannel (handleDataChannelClose s).1 := by
  have hinj : Function.Injective
      (fun fileId => FTEvent.failed fileId "Data channel closed") := by
    intro a b h
    simpa using h
  refine ⟨rfl, rfl, rfl, rfl, by simp [handleDataChannelClose], ?_, ?_, rfl⟩
  · intro fileId
    have hmap : ∀ (l : List (String × TransferringFile)),
        l.map (fun kv => FTEvent.failed kv.1 "Data channel closed") =
          (JsMap.keys l).map
            (fun fileId => FTEvent.failed fileId "Data channel closed") := by
      intro l
      simp [JsMap.keys, List.map_map]
    simp only [handleDataChannelClose, hmap, List.count_append]
    rw [List.count_map_of_injective _ _ hinj, List.count_map_of_injective _ _ hinj]
  · intro e he
    simp only [handleDataChannelClose, List.mem_append, List.mem_map] at he
    rcases he with ⟨kv, _, rfl⟩ | ⟨kv, _, rfl⟩ <;> exact ⟨kv.1, rfl⟩

/-- C9 counterexample: cancelTransfer on an unknown id is not a no-op.
From the state with no transfers, an empty queue and one active slot,
cancelling the unknown id "x" drops the active-transfer counter from 1 to 0
(file-transfer.ts 596 runs unconditionally), so the state changes. -/
theorem cancelTransfer_unknown_id_mutates_state :
    (cancelTransfer DEFAULT_CONFIG
        { sendingFiles := [], receivingFiles := [], transferQueue := []
          activeTransfers := 1 } "x").1.activeTransfers = 0
    ∧ (FTState.mk [] [] [] 1).activeTransfers = 1
    ∧ (cancelTransfer DEFAULT_CONFIG
        { sendingFiles := [], receivingFiles := [], transferQueue := []
          activeTransfers := 1 } "x").2 = []
    ∧ cancelTransfer DEFAULT_CONFIG
        { sendingFiles := [], receivingFiles := [], transferQueue := []
          activeTransfers := 1 } "x" ≠
      ({ sendingFiles := [], receivingFiles := [], transferQueue := []
         activeTransfers := 1 }, []) := by
  refine ⟨rfl, rfl, rfl, ?_⟩
  intro h
  have := congrArg (fun p => p.1.activeTransfers) h
  simp [cancelTransfer, JsMap.find?, processTransferQueue, processQueueGo] at this

/-- C9 as amended: cancelTransfer on an unknown id emits no event and
removes no transfer entry (both tables keep their keys, whatever the
queue), but still decrements the active-transfer counter (floored at
zero) and reprocesses the queue — with an empty queue the sole change is
the decrement; on a known transfer, held by the sending table or by the
receiving table, it removes the entry from that table and from the
pending queue and emits exactly one cancelled event and no failed
event. -/
theorem cancelTransfer_behaviour :
    (∀ (cfg : FileTransferConfig) (s : FTState) (fileId : String),
      JsMap.find? s.sendingFiles fileId = none →
      JsMap.find? s.receivingFiles fileId = none →
      (cancelTransfer cfg s fileId).2 = []
      ∧ JsMap.keys (cancelTransfer cfg s fileId).1.sendingFiles =
          JsMap.keys s.sendingFiles
      ∧ (cancelTransfer cfg s fileId).1.receivingFiles = s.receivingFiles
      ∧ (s.transferQueue = [] →
          cancelTransfer cfg s fileId =
            ({ s with activeTransfers := s.activeTransfers - 1 }, [])))
    ∧ (∀ (cfg : FileTransferConfig) (s : FTState) (fileId : String)
        (tf : TransferringFile),
      JsMap.find? s.sendingFiles fileId = some tf →
      JsMap.find? s.receivingFiles fileId = none →
      (JsMap.keys s.sendingFiles).count fileId ≤ 1 →
      s.transferQueue.count fileId ≤ 1 →
      (cancelTransfer cfg s fileId).2 = [FTEvent.cancelled fileId]
      ∧ fileId ∉ JsMap.keys (cancelTransfer cfg s fileId).1.sendingFiles
      ∧ fileId ∉ JsMap.keys (cancelTransfer cfg s fileId).1.receivingFiles
      ∧ fileId ∉ (cancelTransfer cfg s fileId).1.transferQueue)
    ∧ (∀ (cfg : FileTransferConfig) (s : FTState) (fileId : String)
        (tf : TransferringFile),
      JsMap.find? s.sendingFiles fileId = none →
      JsMap.find? s.receivingFiles fileId = some tf →
      (JsMap.keys s.receivingFiles).count fileId ≤ 1 →
      s.transferQueue.count fileId ≤ 1 →
      (cancelTransfer cfg s fileId).2 = [FTEvent.cancelled fileId]
      ∧ fileId ∉ JsMap.keys (cancelTransfer cfg s fileId).1.sendingFiles
      ∧ fileId ∉ JsMap.keys (cancelTransfer cfg s fileId).1.receivingFiles
      ∧ fileId ∉ (cancelTransfer cfg s fileId).1.transferQueue) := by
  refine ⟨?_, ?_, ?_⟩
  · intro cfg s fileId h1 h2
    refine ⟨?_, ?_, ?_, ?_⟩
    · simp [cancelTransfer, h1, h2]
    · simp only [cancelTransfer, h1, h2, processTransferQueue]
      exact processQueueGo_keys _ _ _ _
    · simp only [cancelTransfer, h1, h2, processTransferQueue]
    · intro hq
      simp only [cancelTransfer, h1, h2, hq, List.erase_nil]
      simp [processTransferQueue, processQueueGo]
  · intro cfg s fileId tf hs hr hcount hq
    refine ⟨?_, ?_, ?_, ?_⟩
    · simp [cancelTransfer, hs, hr]
    · simp only [cancelTransfer, hs, hr, processTransferQueue]
      rw [processQueueGo_keys]
      exact JsMap.not_mem_keys_erase s.sendingFiles fileId hcount
    · simp only [cancelTransfer, hs, hr, processTransferQueue]
      exact find?_none_not_mem_keys s.receivingFiles fileId hr
    · simp only [cancelTransfer, hs, hr, processTransferQueue]
      intro hmem
      have hmem' := processQueueGo_queue_mem cfg.maxConcurrentTransfers
        (s.transferQueue.erase fileId) _ _ fileId hmem
      have hc := List.count_erase_self fileId s.transferQueue
      have : 0 < (s.transferQueue.erase fileId).count fileId :=
        List.count_pos_iff.mpr hmem'
      omega
  · intro cfg s fileId tf hs hr hcount hq
    refine ⟨?_, ?_, ?_, ?_⟩
    · simp [cancelTransfer, hs, hr]
    · simp only [cancelTransfer, hs, hr, processTransferQueue]
      rw [processQueueGo_keys]
      exact find?_none_not_mem_keys s.sendingFiles fileId hs
    · simp only [cancelTransfer, hs, hr, processTransferQueue]
      exact JsMap.not_mem_keys_erase s.receivingFiles fileId hcount
    · simp only [cancelTransfer, hs, hr, processTransferQueue]
      intro hmem
      have hmem' := processQueueGo_queue_mem cfg.maxConcurrentTransfers
        (s.transferQueue.erase fileId) _ _ fileId hmem
      have hc := List.count_erase_self fileId s.transferQueue
      have : 0 < (s.transferQueue.erase fileId).count fileId :=
        List.count_pos_iff.mpr hmem'
      omega

/-- Test fixture: receiver state right after a file-info message for file
"f" with 3 chunks was accepted (handleFileInfo), awaiting chunk 0. -/
def sampleReceiver : FTState :=
  (handleFileInfo FTState.initial "f" "a.bin" "bin" 3).1

/-- C2 evaluated at a failing input: file [1, 2, 3, 4, 5] split into three
2-byte chunks; all three binary chunk payloads arrive (out of order:
2, 0, 1).  handleFileChunk stores none of them (file-transfer.ts 393-397
is a stub that only logs), so the receiver state never changes, and the
reassembly at transfer-complete therefore concatenates zero stored chunks
and reports a completed file of [] instead of the original bytes. -/
theorem reassembly_of_received_chunks_empty :
    (prepareFileChunks (FileTransferConfig.mk 2 3 true 3 1000) "f"
        [1, 2, 3, 4, 5]).length = 3
    ∧ (∀ d ∈ ((prepareFileChunks (FileTransferConfig.mk 2 3 true 3 1000) "f"
          [1, 2, 3, 4, 5]).map FileChunk.data).reverse,
        handleFileChunk sampleReceiver d = (sampleReceiver, [], []))
    ∧ (((prepareFileChunks (FileTransferConfig.mk 2 3 true 3 1000) "f"
          [1, 2, 3, 4, 5]).map FileChunk.data).reverse.foldl
        (fun st d => (handleFileChunk st d).1) sampleReceiver) = sampleReceiver
    ∧ (handleTransferComplete 3 sampleReceiver "f").2.1 =
        [FTEvent.completed "f" ([] : List Nat)]
    ∧ ([] : List Nat) ≠ [1, 2, 3, 4, 5] := by
  refine ⟨by decide, by decide, by decide, ?_, by decide⟩
  simp [handleTransferComplete, completeTransfer, sampleReceiver,
    handleFileInfo, FTState.initial, JsMap.set, JsMap.find?, reconstructBytes]

/-- C3 evaluated at a failing input: the receiver awaits chunks of "f"
whose chunk 0 was prepared with checksum enabled (so the header carries
calculateChecksum [1, 2, 3]); the corrupted payload [1, 2, 250] has a
different checksum, yet handleFileChunk treats it exactly like the intact
payload: no verification, no discard decision, no stored chunk, no event
and no follow-up chunk-request — the corruption is never detected. -/
theorem corrupted_chunk_undetected :
    ((prepareFileChunks (FileTransferConfig.mk 3 3 true 3 1000) "f"
        [1, 2, 3]).map FileChunk.checksum) = [some (calculateChecksum [1, 2, 3])]
    ∧ calculateChecksum [1, 2, 250] ≠ calculateChecksum [1, 2, 3]
    ∧ handleFileChunk sampleReceiver [1, 2, 250] = (sampleReceiver, [], [])
    ∧ handleFileChunk sampleReceiver [1, 2, 3] = (sampleReceiver, [], []) := by
  exact ⟨by decide, by decide, rfl, rfl⟩

theorem prepareFileChunks_flatten (cfg : FileTransferConfig) (fileId : String)
    (bytes : List Nat) (hC : 0 < cfg.chunkSize) :
    ((prepareFileChunks cfg fileId bytes).map FileChunk.data).flatten = bytes := by
  rw [prepareFileChunks_map_data]
  have hcong : (List.range (totalChunksOf bytes.length cfg.chunkSize)).map
      (fun i => (bytes.drop (i * cfg.chunkSize)).take
        (min (i * cfg.chunkSize + cfg.chunkSize) bytes.length
          - i * cfg.chunkSize)) =
      (List.range (totalChunksOf bytes.length cfg.chunkSize)).map
        (fun i => (bytes.drop (i * cfg.chunkSize)).take cfg.chunkSize) := by
    apply List.map_congr_left
    intro i hi
    have hi' : i < totalChunksOf bytes.length cfg.chunkSize := List.mem_range.mp hi
    exact slice_take_eq bytes (i * cfg.chunkSize) cfg.chunkSize
      (Nat.le_of_lt (lt_total_mul bytes.length cfg.chunkSize i hC hi'))
  rw [hcong]
  exact flatten_slices cfg.chunkSize hC bytes

theorem prepareFileChunks_map_index (cfg : FileTransferConfig)
    (fileId : String) (bytes : List Nat) :
    (prepareFileChunks cfg fileId bytes).map FileChunk.index =
      List.range (totalChunksOf bytes.length cfg.chunkSize) := by
  rw [prepareFileChunks, List.map_map]
  exact List.map_id _

theorem prepareFileChunks_pairwise_lt (cfg : FileTransferConfig)
    (fileId : String) (bytes : List Nat) :
    (prepareFileChunks cfg fileId bytes).Pairwise
      (fun a b => a.index < b.index) := by
  have h := List.pairwise_lt_range (totalChunksOf bytes.length cfg.chunkSize)
  rw [← prepareFileChunks_map_index cfg fileId bytes, List.pairwise_map] at h
  exact h

theorem prepareFileChunks_size_eq (cfg : FileTransferConfig)
    (fileId : String) (bytes : List Nat) :
    ∀ c ∈ prepareFileChunks cfg fileId bytes, c.size = c.data.length := by
  intro c hc
  simp only [prepareFileChunks, List.mem_map] at hc
  obtain ⟨i, _, rfl⟩ := hc
  rfl

/-- Two lists strictly sorted by chunk index that are permutations of one
another are equal. -/
theorem chunks_eq_of_perm_of_pairwise_lt :
    ∀ {l₁ l₂ : List FileChunk}, l₁.Perm l₂ →
      l₁.Pairwise (fun a b => a.index < b.index) →
      l₂.Pairwise (fun a b => a.index < b.index) → l₁ = l₂ := by
  intro l₁
  induction l₁ with
  | nil =>
    intro l₂ hp _ _
    exact (List.Perm.nil_eq hp).symm ▸ rfl
  | cons a t ih =>
    intro l₂ hp h1 h2
    cases l₂ with
    | nil => exact absurd hp.symm (by simp)
    | cons b t₂ =>
      have hab : a = b := by
        by_contra hne
        have ha' : a ∈ t₂ := by
          have := hp.subset (List.mem_cons_self a t)
          rcases List.mem_cons.mp this with h | h
          · exact absurd h hne
          · exact h
        have hb' : b ∈ t := by
          have := hp.symm.subset (List.mem_cons_self b t₂)
          rcases List.mem_cons.mp this with h | h
          · exact absurd h.symm hne
          · exact h
        have hlt1 : a.index < b.index := (List.pairwise_cons.mp h1).1 b hb'
        have hlt2 : b.index < a.index := (List.pairwise_cons.mp h2).1 a ha'
        omega
      subst hab
      have ht : t.Perm t₂ := hp.cons_inv
      rw [ih ht (List.pairwise_cons.mp h1).2 (List.pairwise_cons.mp h2).2]

theorem bufWrite_foldl (cs : List FileChunk) (pre : List Nat)
    (hsz : ∀ c ∈ cs, c.size = c.data.length) :
    (cs.foldl (fun acc c => (bufWrite acc.1 acc.2 c.data, acc.2 + c.size))
      (pre ++ List.replicate ((cs.map FileChunk.size).sum) 0, pre.length)).1 =
      pre ++ (cs.map FileChunk.data).flatten := by
  induction cs generalizing pre with
  | nil => simp
  | cons c rest ih =>
    have hc : c.size = c.data.length := hsz c (List.mem_cons_self c rest)
    have hrest : ∀ x ∈ rest, x.size = x.data.length :=
      fun x hx => hsz x (List.mem_cons_of_mem c hx)
    simp only [List.map_cons, List.sum_cons, List.foldl_cons]
    have hrepl : List.replicate (c.size + (rest.map FileChunk.size).sum) (0 : Nat) =
        List.replicate c.size 0 ++
          List.replicate ((rest.map FileChunk.size).sum) 0 := by
      rw [List.replicate_add]
    have hbuf : bufWrite
        (pre ++ List.replicate (c.size + (rest.map FileChunk.size).sum) 0)
        pre.length c.data =
        (pre ++ c.data) ++ List.replicate ((rest.map FileChunk.size).sum) 0 := by
      rw [hrepl, bufWrite]
      have h1 : (pre ++ (List.replicate c.size 0 ++
          List.replicate ((rest.map FileChunk.size).sum) 0)).take pre.length =
          pre := by
        rw [List.take_append_of_le_length (Nat.le_refl _), List.take_length]
      have h2 : (pre ++ (List.replicate c.size 0 ++
          List.replicate ((rest.map FileChunk.size).sum) 0)).drop
            (pre.length + c.data.length) =
          List.replicate ((rest.map FileChunk.size).sum) 0 := by
        rw [← List.append_assoc]
        have hlen : (pre ++ List.replicate c.size 0).length =
            pre.length + c.data.length := by
          simp [hc]
        exact List.drop_left' hlen
      rw [h1, h2, List.append_assoc]
    rw [hbuf]
    have hoff : pre.length + c.size = (pre ++ c.data).length := by
      simp [hc]
    rw [hoff]
    rw [ih (pre ++ c.data) hrest]
    simp

/-- Sort-by-index invariance of reconstructFile: whenever the stored chunk
table holds exactly the prepared chunks of a file — inserted in any
arrival order — reconstructBytes returns the original byte sequence.
This is the reassembly half of the spec's sort-by-index invariant; the
receive path never populates the table (see
reassembly_of_received_chunks_empty), which is why the end-to-end claim
fails on the code. -/
theorem reconstructBytes_perm_invariant (cfg : FileTransferConfig)
    (fileId : String) (bytes : List Nat)
    (received : List (Nat × FileChunk)) (hC : 0 < cfg.chunkSize)
    (hperm : (received.map Prod.snd).Perm (prepareFileChunks cfg fileId bytes)) :
    reconstructBytes received = bytes := by
  have htrans : ∀ (a b c : FileChunk),
      (fun a b : FileChunk => decide (a.index ≤ b.index)) a b = true →
      (fun a b : FileChunk => decide (a.index ≤ b.index)) b c = true →
      (fun a b : FileChunk => decide (a.index ≤ b.index)) a c = true := by
    intro a b c hab hbc
    simp at hab hbc ⊢
    omega
  have htotal : ∀ (a b : FileChunk),
      ((fun a b : FileChunk => decide (a.index ≤ b.index)) a b ||
       (fun a b : FileChunk => decide (a.index ≤ b.index)) b a) = true := by
    intro a b
    simp
    omega
  have hsorted := List.sorted_mergeSort htrans htotal (received.map Prod.snd)
  have hsortperm : ((received.map Prod.snd).mergeSort
      (fun a b => a.index ≤ b.index)).Perm
      (prepareFileChunks cfg fileId bytes) :=
    (List.mergeSort_perm (received.map Prod.snd) _).trans hperm
  have hle : ((received.map Prod.snd).mergeSort
      (fun a b => a.index ≤ b.index)).Pairwise
      (fun a b => a.index ≤ b.index) := by
    refine hsorted.imp ?_
    intro a b h
    simpa using h
  have hnodup : (((received.map Prod.snd).mergeSort
      (fun a b => a.index ≤ b.index)).map FileChunk.index).Nodup := by
    have hp : (((received.map Prod.snd).mergeSort
        (fun a b => a.index ≤ b.index)).map FileChunk.index).Perm
        ((prepareFileChunks cfg fileId bytes).map FileChunk.index) :=
      hsortperm.map FileChunk.index
    rw [prepareFileChunks_map_index] at hp
    exact (List.nodup_range _).perm hp.symm
  have hlt : ((received.map Prod.snd).mergeSort
      (fun a b => a.index ≤ b.index)).Pairwise
      (fun a b => a.index < b.index) := by
    have hne : ((received.map Prod.snd).mergeSort
        (fun a b => a.index ≤ b.index)).Pairwise
        (fun a b => a.index ≠ b.index) := by
      rw [List.Nodup, List.pairwise_map] at hnodup
      exact hnodup
    refine (hle.and hne).imp ?_
    intro a b h
    omega
  have heq : ((received.map Prod.snd).mergeSort
      (fun a b => a.index ≤ b.index)) = prepareFileChunks cfg fileId bytes :=
    chunks_eq_of_perm_of_pairwise_lt hsortperm hlt
      (prepareFileChunks_pairwise_lt cfg fileId bytes)
  rw [reconstructBytes, heq]
  have hfold := bufWrite_foldl (prepareFileChunks cfg fileId bytes) []
    (prepareFileChunks_size_eq cfg fileId bytes)
  simp only [List.nil_append, List.length_nil] at hfold
  rw [hfold]
  exact prepareFileChunks_flatten cfg fileId bytes hC

end FileTransfer

namespace Emitter

/-- The emit method, textually identical in the three managers
(signaling.ts 84-96, FileTransferManager file-transfer.ts 89-104,
WebRTCManager webRTC.ts 95-107): forEach over the listeners registered
for the event, each call wrapped in its own try/catch whose catch only
logs.  A listener is modelled by the exception semantics of its call —
normal return or a thrown exception value; emit returns the caught
outcome of every call, and an error escapes it only if some call escapes
its try/catch. -/
def emit {α ε : Type} (listeners : List (α → Except ε Unit)) (arg : α) :
    Except ε (List (Option ε)) :=
  match listeners with
  | [] => .ok []
  | l :: rest => do
    let r : Option ε := match l arg with
      | .ok _ => none
      | .error e => some e
    let rs ← emit rest arg
    .ok (r :: rs)

/-- The same loop with the try/catch removed: the first thrown exception
aborts the iteration and propagates to the caller.  Stated only to make
precise what the catch in emit prevents. -/
def emitBare {α ε : Type} (listeners : List (α → Except ε Unit)) (arg : α) :
    Except ε Unit :=
  match listeners with
  | [] => .ok ()
  | l :: rest => do
    let _ ← l arg
    emitBare rest arg

/-- C10: an exception thrown by a registered listener is caught inside
emit — it never propagates to the emitting operation, and every other
listener registered for the event is still invoked, each exactly once,
its outcome independent of the other listeners. -/
theorem emit_confines_listener_exceptions {α ε : Type}
    (listeners : List (α → Except ε Unit)) (arg : α) :
    emit listeners arg = .ok (listeners.map (fun l =>
      match l arg with
      | .ok _ => none
      | .error e => some e)) := by
  induction listeners with
  | nil => rfl
  | cons l rest ih =>
    simp only [emit, ih, List.map_cons]
    rfl

/-- Contrast: without the per-listener catch, a throwing listener aborts
the loop, so the later listeners never run and the error escapes. -/
theorem emitBare_propagates {α ε : Type} (e : ε)
    (rest : List (α → Except ε Unit)) (arg : α) :
    emitBare ((fun _ => Except.error e) :: rest) arg = .error e := rfl

end Emitter

namespace Signaling

/-- Signaling connection state (typings, SignalingState). -/
inductive SignalingState : Type
  | DISCONNECTED
  | CONNECTING
  | CONNECTED
  | ERROR
  deriving DecidableEq, Repr

/-- The SignalingManager fields the reconnection machine reads and writes
(signaling.ts 18-28).  The WebSocket handle itself and the interval id
are reduced to the heartbeat flag; listener tables are not part of this
machine. -/
structure SigState : Type where
  state : SignalingState
  reconnectAttempts : Nat
  maxReconnectAttempts : Nat
  reconnectDelay : Nat
  heartbeatActive : Bool
  currentUserId : Option String
  currentRoomId : Option String
  deriving DecidableEq, Repr

/-- A freshly constructed manager (signaling.ts 22-28): disconnected,
counter zero, at most 5 attempts, 1000 ms base delay. -/
def SigState.initial : SigState :=
  { state := .DISCONNECTED, reconnectAttempts := 0, maxReconnectAttempts := 5
    reconnectDelay := 1000, heartbeatActive := false
    currentUserId := none, currentRoomId := none }

/-- External events that drive the machine: the WebSocket open and close
callbacks installed by createWebSocketConnection (signaling.ts 150-180)
and an explicit disconnect() call (419-436). -/
inductive SigEvent : Type
  | wsOpen
  | wsClose (code : Nat)
  | disconnect
  deriving DecidableEq, Repr

/-- attemptReconnect (signaling.ts 370-390): bail out (with only an error
event) at the bound, otherwise increment the counter and schedule a
reconnect after reconnectDelay * 2 ^ (reconnectAttempts - 1) ms — the
counter is incremented first, so the k-th consecutive attempt is delayed
by base * 2^(k-1). -/
def attemptReconnect (s : SigState) : SigState × Option Nat :=
  if s.reconnectAttempts ≥ s.maxReconnectAttempts then (s, none)
  else
    let s' := { s with reconnectAttempts := s.reconnectAttempts + 1 }
    (s', some (s'.reconnectDelay * 2 ^ (s'.reconnectAttempts - 1)))

/-- One step of the machine, returning the new state and the delay of a
scheduled reconnect, if one was scheduled.  wsOpen is the onopen handler
(signaling.ts 150-156): CONNECTED, counter reset, heartbeat started.
wsClose is the onclose handler (164-180): DISCONNECTED, heartbeat
stopped, then attemptReconnect when the close code is not 1000 and
attempts remain.  disconnect (419-436) stops the heartbeat, closes the
socket with code 1000, goes DISCONNECTED and clears the session fields
and the attempt counter. -/
def step (s : SigState) (e : SigEvent) : SigState × Option Nat :=
  match e with
  | .wsOpen =>
    ({ s with state := .CONNECTED, reconnectAttempts := 0
              heartbeatActive := true }, none)
  | .wsClose code =>
    let s1 := { s with state := .DISCONNECTED, heartbeatActive := false }
    if code ≠ 1000 ∧ s1.reconnectAttempts < s1.maxReconnectAttempts then
      attemptReconnect s1
    else (s1, none)
  | .disconnect =>
    ({ s with state := .DISCONNECTED, heartbeatActive := false
              currentUserId := none, currentRoomId := none
              reconnectAttempts := 0 }, none)

/-- The state after a sequence of events. -/
def run (s : SigState) : List SigEvent → SigState
  | [] => s
  | e :: es => run (step s e).1 es

/-- The reconnect delays scheduled over a sequence of events, in order. -/
def runDelays (s : SigState) : List SigEvent → List Nat
  | [] => []
  | e :: es =>
    match (step s e).2 with
    | some d => d :: runDelays (step s e).1 es
    | none => runDelays (step s e).1 es

theorem step_const (s : SigState) (e : SigEvent) :
    (step s e).1.maxReconnectAttempts = s.maxReconnectAttempts ∧
    (step s e).1.reconnectDelay = s.reconnectDelay := by
  cases e with
  | wsOpen => exact ⟨rfl, rfl⟩
  | wsClose code =>
    simp only [step]
    by_cases h : code ≠ 1000 ∧ s.reconnectAttempts < s.maxReconnectAttempts
    · simp only [if_pos h, attemptReconnect]
      by_cases h2 : s.reconnectAttempts ≥ s.maxReconnectAttempts
      · simp [h2]
      · simp [h2]
    · simp [if_neg h]
  | disconnect => exact ⟨rfl, rfl⟩

theorem step_attempts_le (s : SigState) (e : SigEvent)
    (h : s.reconnectAttempts ≤ s.maxReconnectAttempts) :
    (step s e).1.reconnectAttempts ≤ (step s e).1.maxReconnectAttempts := by
  cases e with
  | wsOpen => simp [step]
  | wsClose code =>
    simp only [step]
    by_cases hg : code ≠ 1000 ∧ s.reconnectAttempts < s.maxReconnectAttempts
    · simp only [if_pos hg, attemptReconnect]
      by_cases h2 : s.reconnectAttempts ≥ s.maxReconnectAttempts
      · simp [h2, h]
      · simp only [if_neg h2]
        omega
    · simpa [if_neg hg] using h
  | disconnect => simp [step]

theorem run_attempts_le (es : List SigEvent) (s : SigState)
    (h : s.reconnectAttempts ≤ s.maxReconnectAttempts) :
    (run s es).reconnectAttempts ≤ (run s es).maxReconnectAttempts := by
  induction es generalizing s with
  | nil => exact h
  | cons e rest ih => exact ih _ (step_attempts_le s e h)

theorem runDelays_count (es : List SigEvent) (s : SigState)
    (h : ∀ e ∈ es, e ≠ SigEvent.wsOpen ∧ e ≠ SigEvent.disconnect) :
    (run s es).reconnectAttempts =
      s.reconnectAttempts + (runDelays s es).length := by
  induction es generalizing s with
  | nil => simp [run, runDelays]
  | cons e rest ih =>
    have he := h e (List.mem_cons_self e rest)
    have hrest : ∀ x ∈ rest, x ≠ SigEvent.wsOpen ∧ x ≠ SigEvent.disconnect :=
      fun x hx => h x (List.mem_cons_of_mem e hx)
    cases e with
    | wsOpen => exact absurd rfl he.1
    | disconnect => exact absurd rfl he.2
    | wsClose code =>
      rw [run, runDelays]
      by_cases hg : code ≠ 1000 ∧ s.reconnectAttempts < s.maxReconnectAttempts
      · have hstep : step s (SigEvent.wsClose code) =
            ({ s with state := .DISCONNECTED, heartbeatActive := false
                      reconnectAttempts := s.reconnectAttempts + 1 },
              some (s.reconnectDelay * 2 ^ (s.reconnectAttempts + 1 - 1))) := by
          simp only [step, if_pos hg, attemptReconnect]
          rw [if_neg (by omega)]
        rw [hstep]
        simp only []
        rw [ih _ hrest]
        simp
        omega
      · have hstep : step s (SigEvent.wsClose code) =
            ({ s with state := .DISCONNECTED, heartbeatActive := false }, none) := by
          simp only [step, if_neg hg]
        rw [hstep]
        simp only []
        rw [ih _ hrest]

theorem run_const (es : List SigEvent) (s : SigState) :
    (run s es).maxReconnectAttempts = s.maxReconnectAttempts ∧
    (run s es).reconnectDelay = s.reconnectDelay := by
  induction es generalizing s with
  | nil => exact ⟨rfl, rfl⟩
  | cons e rest ih =>
    have hc := step_const s e
    rw [run]
    exact ⟨(ih _).1.trans hc.1, (ih _).2.trans hc.2⟩

/-- C4 counterexample: the attempt counter is not reset only upon a
successful transition to Connected.  disconnect() (signaling.ts 419-436)
also resets it: from a state with 3 attempts used, disconnect zeroes the
counter while the resulting state is DISCONNECTED, not CONNECTED. -/
theorem disconnect_resets_attempt_counter :
    ({ SigState.initial with reconnectAttempts := 3 } : SigState).reconnectAttempts = 3
    ∧ (step { SigState.initial with reconnectAttempts := 3 }
        SigEvent.disconnect).1.reconnectAttempts = 0
    ∧ (step { SigState.initial with reconnectAttempts := 3 }
        SigEvent.disconnect).1.state = SignalingState.DISCONNECTED
    ∧ (step { SigState.initial with reconnectAttempts := 3 }
        SigEvent.disconnect).1.state ≠ SignalingState.CONNECTED := by
  decide

/-- C4 as amended: after any non-clean close the manager schedules at most
maxReconnectAttempts reconnection attempts — the counter never exceeds the
bound, and over any stretch of events containing no open and no
disconnect the number of scheduled reconnects is bounded by the remaining
budget; the delay scheduled before consecutive attempt k is
reconnectDelay * 2^(k-1); and the attempt counter is reset to 0 upon a
successful transition to Connected and upon an explicit disconnect(), and
by nothing else. -/
theorem reconnect_backoff_behaviour :
    (∀ (es : List SigEvent) (s : SigState),
      s.reconnectAttempts ≤ s.maxReconnectAttempts →
      (run s es).reconnectAttempts ≤ s.maxReconnectAttempts)
    ∧ (∀ (es : List SigEvent) (s : SigState),
      (∀ e ∈ es, e ≠ SigEvent.wsOpen ∧ e ≠ SigEvent.disconnect) →
      s.reconnectAttempts ≤ s.maxReconnectAttempts →
      (runDelays s es).length + s.reconnectAttempts ≤ s.maxReconnectAttempts)
    ∧ (∀ (s : SigState) (code : Nat) (d : Nat),
      (step s (SigEvent.wsClose code)).2 = some d →
      (step s (SigEvent.wsClose code)).1.reconnectAttempts =
          s.reconnectAttempts + 1
      ∧ d = s.reconnectDelay * 2 ^ s.reconnectAttempts)
    ∧ (∀ (s : SigState) (e : SigEvent),
      (step s e).1.reconnectAttempts = 0 → s.reconnectAttempts ≠ 0 →
      e = SigEvent.wsOpen ∨ e = SigEvent.disconnect)
    ∧ (∀ s : SigState, (step s SigEvent.wsOpen).1.state = SignalingState.CONNECTED
        ∧ (step s SigEvent.wsOpen).1.reconnectAttempts = 0) := by
  refine ⟨?_, ?_, ?_, ?_, fun s => ⟨rfl, rfl⟩⟩
  · intro es s h
    have := run_attempts_le es s h
    rw [(run_const es s).1] at this
    exact this
  · intro es s hes h
    have hcount := runDelays_count es s hes
    have hle := run_attempts_le es s h
    rw [(run_const es s).1] at hle
    omega
  · intro s code d hd
    by_cases hg : code ≠ 1000 ∧ s.reconnectAttempts < s.maxReconnectAttempts
    · have hstep : step s (SigEvent.wsClose code) =
          ({ s with state := .DISCONNECTED, heartbeatActive := false
                    reconnectAttempts := s.reconnectAttempts + 1 },
            some (s.reconnectDelay * 2 ^ (s.reconnectAttempts + 1 - 1))) := by
        simp only [step, if_pos hg, attemptReconnect]
        rw [if_neg (by omega)]
      rw [hstep] at hd ⊢
      simp only [Option.some_inj] at hd
      subst hd
      exact ⟨rfl, by simp⟩
    · have hstep : step s (SigEvent.wsClose code) =
          ({ s with state := .DISCONNECTED, heartbeatActive := false }, none) := by
        simp only [step, if_neg hg]
      rw [hstep] at hd
      exact absurd hd (by simp)
  · intro s e h0 hne
    cases e with
    | wsOpen => exact Or.inl rfl
    | disconnect => exact Or.inr rfl
    | wsClose code =>
      exfalso
      by_cases hg : code ≠ 1000 ∧ s.reconnectAttempts < s.maxReconnectAttempts
      · have hstep : step s (SigEvent.wsClose code) =
            ({ s with state := .DISCONNECTED, heartbeatActive := false
                      reconnectAttempts := s.reconnectAttempts + 1 },
              some (s.reconnectDelay * 2 ^ (s.reconnectAttempts + 1 - 1))) := by
          simp only [step, if_pos hg, attemptReconnect]
          rw [if_neg (by omega)]
        rw [hstep] at h0
        simp at h0
      · have hstep : step s (SigEvent.wsClose code) =
            ({ s with state := .DISCONNECTED, heartbeatActive := false }, none) := by
          simp only [step, if_neg hg]
        rw [hstep] at h0
        simp at h0
        exact hne h0

end Signaling

namespace JsMap

theorem set_ne_nil {K V : Type} [DecidableEq K]
    (m : List (K × V)) (key : K) (v : V) : set m key v ≠ [] := by
  cases m with
  | nil => simp [set]
  | cons hd tl =>
    obtain ⟨k, w⟩ := hd
    by_cases h : k = key <;> simp [set, h]

theorem mem_set {K V : Type} [DecidableEq K]
    (m : List (K × V)) (key : K) (v : V) (kv : K × V)
    (h : kv ∈ set m key v) : kv = (key, v) ∨ kv ∈ m := by
  induction m with
  | nil => simpa [set] using h
  | cons hd tl ih =>
    obtain ⟨k, w⟩ := hd
    by_cases hk : k = key
    · subst hk
      simp [set] at h
      rcases h with h | h
      · exact Or.inl (by simp [h])
      · exact Or.inr (by simp [h])
    · simp [set, hk] at h
      rcases h with h | h
      · exact Or.inr (by simp [h])
      · rcases ih h with h' | h'
        · exact Or.inl h'
        · exact Or.inr (by simp [h'])

theorem erase_set {K V : Type} [DecidableEq K]
    (m : List (K × V)) (key : K) (v : V) :
    erase (set m key v) key = erase m key := by
  induction m with
  | nil => simp [set, erase]
  | cons hd tl ih =>
    obtain ⟨k, w⟩ := hd
    by_cases hk : k = key
    · simp [set, erase, hk]
    · simp [set, erase, hk, ih]

theorem mem_of_mem_erase {K V : Type} [DecidableEq K]
    (m : List (K × V)) (key : K) (kv : K × V)
    (h : kv ∈ erase m key) : kv ∈ m := by
  induction m with
  | nil => simp [erase] at h
  | cons hd tl ih =>
    obtain ⟨k, w⟩ := hd
    by_cases hk : k = key
    · simp [erase, hk] at h
      simp [h]
    · simp [erase, hk] at h
      rcases h with h | h
      · simp [h]
      · simp [ih h]

theorem keys_erase_sublist {K V : Type} [DecidableEq K]
    (m : List (K × V)) (key : K) :
    (keys (erase m key)).Sublist (keys m) := by
  induction m with
  | nil => simp [erase]
  | cons hd tl ih =>
    obtain ⟨k, w⟩ := hd
    by_cases hk : k = key
    · simp only [erase, if_pos hk]
      exact List.sublist_cons_self k (keys tl)
    · simp only [erase, if_neg hk, keys_cons]
      exact ih.cons₂ k

theorem find?_some_mem {K V : Type} [DecidableEq K]
    (m : List (K × V)) (key : K) (v : V)
    (h : find? m key = some v) : (key, v) ∈ m := by
  induction m with
  | nil => simp [find?] at h
  | cons hd tl ih =>
    obtain ⟨k, w⟩ := hd
    by_cases hk : k = key
    · subst hk
      simp [find?] at h
      simp [h]
    · simp [find?, hk] at h
      simp [ih h]

theorem keys_set_mem {K V : Type} [DecidableEq K]
    (m : List (K × V)) (key : K) (v : V) :
    keys (set m key v) = if key ∈ keys m then keys m else keys m ++ [key] := by
  by_cases h : key ∈ keys m
  · simp [h, keys_set_of_mem m key v h]
  · simp [h, set_of_not_mem m key v h]

end JsMap

namespace Relay

/-- A connected client as the relay stores it (server types): id and the
room it was attached to; the WebSocket handle is outside the embedding —
sendToClient is captured by the message list an operation returns. -/
structure Client : Type where
  id : String
  roomId : String
  deriving DecidableEq, Repr

/-- A relay room (server types): id, name and the member table. -/
structure Room : Type where
  id : String
  name : String
  clients : List (String × Client)
  deriving DecidableEq, Repr

/-- Message types the room service sends (config/constants.ts,
MessageType): join and leave notifications. -/
inductive MsgType : Type
  | JOIN
  | LEAVE
  deriving DecidableEq, Repr

/-- A signaling message as the room service constructs it.  The fields
model the wire fields "from" and "to" (from is a Lean keyword, hence
fromId / toId). -/
structure RelayMsg : Type where
  type : MsgType
  fromId : String
  toId : String
  roomId : String
  deriving DecidableEq, Repr

/-- The RoomService state (roomService, lines 9-16): the room table and
the client table. -/
structure RoomServiceState : Type where
  rooms : List (String × Room)
  clients : List (String × Client)
  deriving DecidableEq, Repr

/-- A freshly constructed RoomService: both tables empty. -/
def RoomServiceState.initial : RoomServiceState := { rooms := [], clients := [] }

/-- hasRoom (roomService 107-109): this.rooms.has(roomId). -/
def hasRoom (s : RoomServiceState) (roomId : String) : Bool :=
  JsMap.contains s.rooms roomId

/-- getRoom (roomService 39-41). -/
def getRoom (s : RoomServiceState) (roomId : String) : Option Room :=
  JsMap.find? s.rooms roomId

/-- joinRoom (roomService 124-158): look the room up, creating (and
storing) a default-named room under the given id when absent; add the
client to the room and the client table; then, for every other member in
table order, send that member a JOIN naming the new client, and send the
new client a JOIN naming that member. -/
def joinRoom (s : RoomServiceState) (roomId : String) (client : Client) :
    RoomServiceState × List RelayMsg :=
  let room :=
    match JsMap.find? s.rooms roomId with
    | some r => r
    | none => { id := roomId, name := "default", clients := [] }
  let room1 := { room with clients := JsMap.set room.clients client.id client }
  let rooms1 := JsMap.set s.rooms roomId room1
  let clients1 := JsMap.set s.clients client.id client
  let msgs := room1.clients.flatMap (fun kv =>
    if kv.2.id ≠ client.id then
      [{ type := .JOIN, fromId := client.id, toId := kv.2.id, roomId := roomId },
       { type := .JOIN, fromId := kv.2.id, toId := client.id, roomId := roomId }]
    else [])
  ({ rooms := rooms1, clients := clients1 }, msgs)

/-- leaveRoom (roomService 160-184): look the client up (no-op when
unknown), look its room up through client.roomId (the client table entry
is kept when that room is gone), remove the client from the room and the
client table, notify every remaining member, and delete the room — keyed
by room.id — when it became empty. -/
def leaveRoom (s : RoomServiceState) (clientId : String) :
    RoomServiceState × List RelayMsg :=
  match JsMap.find? s.clients clientId with
  | none => (s, [])
  | some client =>
    match JsMap.find? s.rooms client.roomId with
    | none => (s, [])
    | some room =>
      let roomClients1 := JsMap.erase room.clients clientId
      let clients1 := JsMap.erase s.clients clientId
      let msgs := roomClients1.map (fun kv =>
        { type := MsgType.LEAVE, fromId := clientId, toId := kv.2.id
          roomId := client.roomId })
      let rooms1 := JsMap.set s.rooms client.roomId
        { room with clients := roomClients1 }
      let rooms2 :=
        if roomClients1.length = 0 then JsMap.erase rooms1 room.id else rooms1
      ({ rooms := rooms2, clients := clients1 }, msgs)

/-- The joinRoom / leaveRoom operations C6 ranges over. -/
inductive RoomOp : Type
  | join (roomId : String) (client : Client)
  | leave (clientId : String)
  deriving DecidableEq, Repr

/-- State reached from the fresh service by a sequence of operations. -/
def runOps (ops : List RoomOp) : RoomServiceState :=
  ops.foldl
    (fun s op =>
      match op with
      | .join roomId client => (joinRoom s roomId client).1
      | .leave clientId => (leaveRoom s clientId).1)
    RoomServiceState.initial

/-- Room-table well-formedness: no room is empty, every room sits under
its own id as key, and the keys are distinct. -/
def Inv (s : RoomServiceState) : Prop :=
  (∀ kv ∈ s.rooms, kv.2.clients ≠ [] ∧ kv.1 = kv.2.id) ∧
    (JsMap.keys s.rooms).Nodup

instance (s : RoomServiceState) : Decidable (Inv s) := by
  unfold Inv
  infer_instance

theorem joinRoom_inv (s : RoomServiceState) (roomId : String) (client : Client)
    (h : Inv s) : Inv (joinRoom s roomId client).1 := by
  obtain ⟨hwf, hnd⟩ := h
  constructor
  · intro kv hkv
    simp only [joinRoom] at hkv
    rcases JsMap.mem_set _ _ _ _ hkv with hkv | hkv
    · subst hkv
      refine ⟨JsMap.set_ne_nil _ _ _, ?_⟩
      cases hfind : JsMap.find? s.rooms roomId with
      | some r =>
        have := (hwf (roomId, r) (JsMap.find?_some_mem _ _ _ hfind)).2
        simp only [hfind]
        exact this
      | none => simp [hfind]
    · exact hwf kv hkv
  · simp only [joinRoom]
    rw [JsMap.keys_set_mem]
    by_cases hm : roomId ∈ JsMap.keys s.rooms
    · simpa [hm] using hnd
    · simp [hm, List.nodup_append, hnd]

theorem leaveRoom_inv (s : RoomServiceState) (clientId : String)
    (h : Inv s) : Inv (leaveRoom s clientId).1 := by
  obtain ⟨hwf, hnd⟩ := h
  unfold leaveRoom
  split
  · exact ⟨hwf, hnd⟩
  · next client hc =>
    split
    · exact ⟨hwf, hnd⟩
    · next room hr =>
      have hkeyid : client.roomId = room.id :=
        (hwf (client.roomId, room) (JsMap.find?_some_mem _ _ _ hr)).2
      dsimp only []
      by_cases hempty : (JsMap.erase room.clients clientId).length = 0
      · rw [if_pos hempty]
        constructor
        · intro kv hkv
          have hkv1 : kv ∈ JsMap.set s.rooms client.roomId
              { room with clients := JsMap.erase room.clients clientId } :=
            JsMap.mem_of_mem_erase _ _ _ hkv
          rw [← hkeyid] at hkv
          rw [JsMap.erase_set] at hkv
          exact hwf kv (JsMap.mem_of_mem_erase _ _ _ hkv)
        · have hsub := JsMap.keys_erase_sublist
            (JsMap.set s.rooms client.roomId
              { room with clients := JsMap.erase room.clients clientId }) room.id
          refine List.Nodup.sublist hsub ?_
          rw [JsMap.keys_set_mem]
          have hm : client.roomId ∈ JsMap.keys s.rooms :=
            FileTransfer.find?_some_mem_keys _ _ _ hr
          simpa [hm] using hnd
      · rw [if_neg hempty]
        constructor
        · intro kv hkv
          rcases JsMap.mem_set _ _ _ _ hkv with hkv | hkv
          · subst hkv
            refine ⟨?_, hkeyid⟩
            intro hnil
            apply hempty
            rw [show JsMap.erase room.clients clientId = [] from hnil]
            rfl
          · exact hwf kv hkv
        · rw [JsMap.keys_set_mem]
          have hm : client.roomId ∈ JsMap.keys s.rooms :=
            FileTransfer.find?_some_mem_keys _ _ _ hr
          simpa [hm] using hnd

/-- C6: across every sequence of joinRoom / leaveRoom operations from the
fresh relay, the room table never holds a zero-member room (each room
sits under its own id, keys distinct); a join makes hasRoom of its roomId
true, creating the room when absent; when the last member leaves, the
room is deleted immediately (hasRoom false right after); and hasRoom
answers exactly whether the room table holds the id. -/
theorem roomRegistry_lifecycle :
    (∀ ops : List RoomOp, Inv (runOps ops))
    ∧ (∀ (s : RoomServiceState) (roomId : String) (c : Client),
        hasRoom (joinRoom s roomId c).1 roomId = true)
    ∧ (∀ (s : RoomServiceState) (clientId : String) (client : Client)
        (room : Room),
        Inv s →
        JsMap.find? s.clients clientId = some client →
        JsMap.find? s.rooms client.roomId = some room →
        JsMap.keys room.clients = [clientId] →
        hasRoom (leaveRoom s clientId).1 client.roomId = false)
    ∧ (∀ (s : RoomServiceState) (roomId : String),
        hasRoom s roomId = (getRoom s roomId).isSome) := by
  refine ⟨?_, ?_, ?_, fun s roomId => rfl⟩
  · intro ops
    suffices h : ∀ (l : List RoomOp) (s : RoomServiceState), Inv s →
        Inv (l.foldl (fun s op =>
          match op with
          | .join roomId client => (joinRoom s roomId client).1
          | .leave clientId => (leaveRoom s clientId).1) s) by
      exact h ops RoomServiceState.initial (by decide)
    intro l
    induction l with
    | nil => intro s hs; exact hs
    | cons op rest ih =>
      intro s hs
      cases op with
      | join roomId client => exact ih _ (joinRoom_inv s roomId client hs)
      | leave clientId => exact ih _ (leaveRoom_inv s clientId hs)
  · intro s roomId c
    simp [hasRoom, JsMap.contains, joinRoom, JsMap.find?_set_self]
  · intro s clientId client room hinv hc hr hsole
    obtain ⟨hwf, hnd⟩ := hinv
    have hkeyid : client.roomId = room.id :=
      (hwf (client.roomId, room) (JsMap.find?_some_mem _ _ _ hr)).2
    have hclients : ∃ x, room.clients = [(clientId, x)] := by
      cases hcl : room.clients with
      | nil => rw [hcl] at hsole; simp at hsole
      | cons kv rest =>
        cases rest with
        | nil =>
          obtain ⟨k, x⟩ := kv
          rw [hcl] at hsole
          simp at hsole
          exact ⟨x, by rw [hsole]⟩
        | cons kv2 rest2 =>
          rw [hcl] at hsole
          simp [JsMap.keys] at hsole
    obtain ⟨x, hx⟩ := hclients
    have herase : JsMap.erase room.clients clientId = [] := by
      rw [hx]
      simp [JsMap.erase]
    unfold leaveRoom
    rw [hc]
    dsimp only []
    rw [hr]
    dsimp only []
    rw [herase]
    simp only [List.length_nil, if_pos rfl]
    have hstep : JsMap.erase
        (JsMap.set s.rooms client.roomId
          { room with clients := ([] : List (String × Client)) }) room.id =
        JsMap.erase s.rooms client.roomId := by
      rw [← hkeyid, JsMap.erase_set]
    simp only [hasRoom, JsMap.contains]
    rw [hstep]
    simp only [if_true]
    have hcount : (JsMap.keys s.rooms).count client.roomId ≤ 1 :=
      List.nodup_iff_count_le_one.mp hnd client.roomId
    rw [JsMap.find?_eq_none_of_not_mem _ _
      (JsMap.not_mem_keys_erase s.rooms client.roomId hcount)]
    rfl

/-- The two notifications joinRoom sends for one existing member kv:
first to the member (naming the new client), then to the new client
(naming the member). -/
def joinPair (c : Client) (roomId : String) (kv : String × Client) :
    List RelayMsg :=
  [{ type := MsgType.JOIN, fromId := c.id, toId := kv.2.id, roomId := roomId },
   { type := MsgType.JOIN, fromId := kv.2.id, toId := c.id, roomId := roomId }]

theorem joinRoom_msgs (s : RoomServiceState) (roomId : String) (room : Room)
    (c : Client) (hroom : JsMap.find? s.rooms roomId = some room)
    (hids : ∀ kv ∈ room.clients, kv.1 = kv.2.id)
    (hnew : c.id ∉ JsMap.keys room.clients) :
    (joinRoom s roomId c).2 = room.clients.flatMap (joinPair c roomId) := by
  unfold joinRoom
  rw [hroom]
  dsimp only []
  rw [JsMap.set_of_not_mem _ _ _ hnew, List.flatMap_append]
  have h2 : [(c.id, c)].flatMap (fun kv =>
      if kv.2.id ≠ c.id then
        ([{ type := MsgType.JOIN, fromId := c.id, toId := kv.2.id
            roomId := roomId },
          { type := MsgType.JOIN, fromId := kv.2.id, toId := c.id
            roomId := roomId }] : List RelayMsg)
      else []) = [] := by
    simp
  rw [h2, List.append_nil]
  apply List.flatMap_congr
  intro kv hkv
  have hne : kv.2.id ≠ c.id := by
    intro he
    apply hnew
    rw [← he, ← hids kv hkv]
    exact List.mem_map_of_mem Prod.fst hkv
  simp [joinPair, hne]

theorem joinPair_filter_to_new (ms : List (String × Client)) (c : Client)
    (roomId : String) (hids : ∀ kv ∈ ms, kv.1 = kv.2.id)
    (hnew : c.id ∉ JsMap.keys ms) :
    (ms.flatMap (joinPair c roomId)).filter (fun msg => msg.toId = c.id) =
      ms.map (fun kv =>
        { type := MsgType.JOIN, fromId := kv.2.id, toId := c.id
          roomId := roomId }) := by
  induction ms with
  | nil => rfl
  | cons kv rest ih =>
    obtain ⟨k, w⟩ := kv
    have hk : k = w.id := hids (k, w) (List.mem_cons_self _ _)
    have hne : ¬(w.id = c.id) := by
      intro he
      exact hnew (by simp [hk, he])
    have hrest : ∀ kv ∈ rest, kv.1 = kv.2.id :=
      fun kv hkv => hids kv (List.mem_cons_of_mem _ hkv)
    have hnewr : c.id ∉ JsMap.keys rest := by
      intro hm
      exact hnew (by simp [hm])
    simp only [List.flatMap_cons, List.filter_append, joinPair, List.map_cons]
    rw [ih hrest hnewr]
    simp [hne]

theorem joinPair_filter_to_nonmember (ms : List (String × Client)) (c : Client)
    (roomId : String) (m : String) (hids : ∀ kv ∈ ms, kv.1 = kv.2.id)
    (hm : m ∉ JsMap.keys ms) (hmc : m ≠ c.id) :
    (ms.flatMap (joinPair c roomId)).filter (fun msg => msg.toId = m) = [] := by
  induction ms with
  | nil => rfl
  | cons kv rest ih =>
    obtain ⟨k, w⟩ := kv
    have hk : k = w.id := hids (k, w) (List.mem_cons_self _ _)
    have hne : ¬(w.id = m) := by
      intro he
      exact hm (by simp [hk, he])
    have hrest : ∀ kv ∈ rest, kv.1 = kv.2.id :=
      fun kv hkv => hids kv (List.mem_cons_of_mem _ hkv)
    have hmr : m ∉ JsMap.keys rest := by
      intro hmem
      exact hm (by simp [hmem])
    have hcm : ¬(c.id = m) := fun h => hmc (Eq.symm h)
    simp only [List.flatMap_cons, List.filter_append, joinPair]
    rw [ih hrest hmr]
    simp [hne, hcm]

theorem joinPair_filter_to_member (ms : List (String × Client)) (c : Client)
    (roomId : String) (m : String) (hids : ∀ kv ∈ ms, kv.1 = kv.2.id)
    (hnodup : (JsMap.keys ms).Nodup) (hnew : c.id ∉ JsMap.keys ms)
    (hm : m ∈ JsMap.keys ms) :
    (ms.flatMap (joinPair c roomId)).filter (fun msg => msg.toId = m) =
      [{ type := MsgType.JOIN, fromId := c.id, toId := m, roomId := roomId }] := by
  have hmc : m ≠ c.id := by
    intro he
    exact hnew (he ▸ hm)
  induction ms with
  | nil => simp at hm
  | cons kv rest ih =>
    obtain ⟨k, w⟩ := kv
    have hk : k = w.id := hids (k, w) (List.mem_cons_self _ _)
    have hrest : ∀ kv ∈ rest, kv.1 = kv.2.id :=
      fun kv hkv => hids kv (List.mem_cons_of_mem _ hkv)
    have hnewr : c.id ∉ JsMap.keys rest := by
      intro hmem
      exact hnew (by simp [hmem])
    have hndr : (JsMap.keys rest).Nodup := (List.nodup_cons.mp hnodup).2
    simp only [List.flatMap_cons, List.filter_append, joinPair]
    by_cases hkm : k = m
    · subst hkm
      have hmr : k ∉ JsMap.keys rest := (List.nodup_cons.mp hnodup).1
      rw [joinPair_filter_to_nonmember rest c roomId k hrest hmr hmc]
      have hcm : ¬(c.id = k) := fun h => hmc (Eq.symm h)
      simp [← hk, hcm]
    · have hmr : m ∈ JsMap.keys rest := by
        rcases List.mem_cons.mp hm with h | h
        · exact absurd h.symm hkm
        · exact h
      rw [ih hrest hndr hnewr hmr]
      have hne : ¬(w.id = m) := by
        rw [← hk]
        exact hkm
      have hcm : ¬(c.id = m) := fun h => hmc (Eq.symm h)
      simp [hne, hcm]

theorem joinPair_no_self_notification (ms : List (String × Client)) (c : Client)
    (roomId : String) (hids : ∀ kv ∈ ms, kv.1 = kv.2.id)
    (hnew : c.id ∉ JsMap.keys ms) :
    ∀ msg ∈ ms.flatMap (joinPair c roomId),
      ¬(msg.toId = c.id ∧ msg.fromId = c.id) := by
  intro msg hmsg
  rw [List.mem_flatMap] at hmsg
  obtain ⟨kv, hkv, hmem⟩ := hmsg
  have hne : kv.2.id ≠ c.id := by
    intro he
    apply hnew
    rw [← he, ← hids kv hkv]
    exact List.mem_map_of_mem Prod.fst hkv
  simp only [joinPair, List.mem_cons, List.mem_singleton] at hmem
  rcases hmem with rfl | rfl | h
  · intro hand
    exact hne hand.1
  · intro hand
    exact hne hand.2
  · exact absurd h (by simp)

/-- C5: when a client joins a room holding N existing members, the relay
notifies pairwise and bidirectionally: each existing member receives
exactly one JOIN naming the new client; the new client receives exactly
one JOIN per existing member (N in total, in table order); and no
notification names the joining client to itself. -/
theorem join_notifications (s : RoomServiceState) (roomId : String)
    (room : Room) (c : Client)
    (hroom : JsMap.find? s.rooms roomId = some room)
    (hids : ∀ kv ∈ room.clients, kv.1 = kv.2.id)
    (hnodup : (JsMap.keys room.clients).Nodup)
    (hnew : c.id ∉ JsMap.keys room.clients) :
    (∀ m ∈ JsMap.keys room.clients,
      (joinRoom s roomId c).2.filter (fun msg => msg.toId = m) =
        [{ type := MsgType.JOIN, fromId := c.id, toId := m, roomId := roomId }])
    ∧ (joinRoom s roomId c).2.filter (fun msg => msg.toId = c.id) =
        room.clients.map (fun kv =>
          { type := MsgType.JOIN, fromId := kv.2.id, toId := c.id
            roomId := roomId })
    ∧ ((joinRoom s roomId c).2.filter (fun msg => msg.toId = c.id)).length =
        room.clients.length
    ∧ (∀ msg ∈ (joinRoom s roomId c).2,
        ¬(msg.toId = c.id ∧ msg.fromId = c.id)) := by
  have hmsgs := joinRoom_msgs s roomId room c hroom hids hnew
  rw [hmsgs]
  refine ⟨?_, ?_, ?_, ?_⟩
  · intro m hm
    exact joinPair_filter_to_member room.clients c roomId m hids hnodup hnew hm
  · exact joinPair_filter_to_new room.clients c roomId hids hnew
  · rw [joinPair_filter_to_new room.clients c roomId hids hnew]
    exact List.length_map _ _
  · exact joinPair_no_self_notification room.clients c roomId hids hnew

/-- Test fixture: a relay room "r1" with two members u1 and u2. -/
def demoClients : List (String × Client) :=
  [("u1", { id := "u1", roomId := "r1" }), ("u2", { id := "u2", roomId := "r1" })]

/-- Test fixture: the room record for "r1". -/
def demoRoom : Room := { id := "r1", name := "default", clients := demoClients }

/-- Test fixture: relay state holding exactly room "r1". -/
def demoState : RoomServiceState :=
  { rooms := [("r1", demoRoom)], clients := demoClients }

/-- Witness for the join-notification theorem: u3 joining room "r1" with
members u1 and u2 sends u1 exactly one JOIN naming u3, and sends u3
exactly 2 notifications, one per existing member. -/
theorem join_notifications_witness :
    (JsMap.find? demoState.rooms "r1" = some demoRoom
      ∧ (∀ kv ∈ demoRoom.clients, kv.1 = kv.2.id)
      ∧ (JsMap.keys demoRoom.clients).Nodup
      ∧ (Client.mk "u3" "r1").id ∉ JsMap.keys demoRoom.clients)
    ∧ ((joinRoom demoState "r1" (Client.mk "u3" "r1")).2.filter
        (fun msg => msg.toId = "u1") =
        [{ type := MsgType.JOIN, fromId := "u3", toId := "u1", roomId := "r1" }])
    ∧ ((joinRoom demoState "r1" (Client.mk "u3" "r1")).2.filter
        (fun msg => msg.toId = (Client.mk "u3" "r1").id)).length =
        demoRoom.clients.length := by
  have h := join_notifications demoState "r1" demoRoom (Client.mk "u3" "r1")
    (by decide) (by decide) (by decide) (by decide)
  refine ⟨⟨by decide, by decide, by decide, by decide⟩, ?_, ?_⟩
  · exact h.1 "u1" (by decide)
  · exact h.2.2.1

end Relay

namespace WebRTC

/-- Chunk size of sendFileInChunks (webRTC.ts 379): 16 KiB. -/
def sendChunkSize : Nat := 16384

/-- Backpressure high-water mark of sendFileInChunks (webRTC.ts 396-397):
16 MiB of outstanding buffered bytes. -/
def bufferedAmountLimit : Nat := 16777216

/-- The payload sendFileInChunks slices for chunk i (webRTC.ts 389-391):
file.slice(i * 16384, min((i + 1) * 16384, size)). -/
def fileChunkData (bytes : List Nat) (i : Nat) : List Nat :=
  (bytes.drop (i * sendChunkSize)).take
    (min (i * sendChunkSize + sendChunkSize) bytes.length - i * sendChunkSize)

/-- The send loop of sendFileInChunks (webRTC.ts 388-409) as a step
schedule.  Time advances one unit per suspension: each 10 ms sleep of the
backpressure wait is one step, and each chunk send (with its preceding
arrayBuffer await) is one step.  The environment controls the channel's
bufferedAmount as an arbitrary function of time.  The result lists the
(time, chunkIndex) pairs at which the loop handed a chunk to the channel;
fuel bounds the number of steps examined, so every finite prefix of the
real execution is some instance. -/
def sendSteps (buffered : Nat → Nat) (hwm totalChunks : Nat) :
    Nat → Nat → Nat → List (Nat × Nat)
  | 0, _, _ => []
  | fuel + 1, t, i =>
    if i < totalChunks then
      if buffered t > hwm then sendSteps buffered hwm totalChunks fuel (t + 1) i
      else (t, i) :: sendSteps buffered hwm totalChunks fuel (t + 1) (i + 1)
    else []

theorem sendSteps_drained (buffered : Nat → Nat) (hwm n : Nat) :
    ∀ (fuel t i : Nat) (p : Nat × Nat),
      p ∈ sendSteps buffered hwm n fuel t i → buffered p.1 ≤ hwm := by
  intro fuel
  induction fuel with
  | zero => intro t i p hp; simp [sendSteps] at hp
  | succ f ih =>
    intro t i p hp
    simp only [sendSteps] at hp
    by_cases hi : i < n
    · rw [if_pos hi] at hp
      by_cases hb : buffered t > hwm
      · rw [if_pos hb] at hp
        exact ih _ _ p hp
      · rw [if_neg hb] at hp
        rcases List.mem_cons.mp hp with rfl | hp
        · show buffered t ≤ hwm
          omega
        · exact ih _ _ p hp
    · rw [if_neg hi] at hp
      simp at hp

theorem sendSteps_indices (buffered : Nat → Nat) (hwm n : Nat) :
    ∀ (fuel t i : Nat),
      (sendSteps buffered hwm n fuel t i).map Prod.snd =
        List.range' i (sendSteps buffered hwm n fuel t i).length := by
  intro fuel
  induction fuel with
  | zero => intro t i; simp [sendSteps]
  | succ f ih =>
    intro t i
    simp only [sendSteps]
    by_cases hi : i < n
    · rw [if_pos hi]
      by_cases hb : buffered t > hwm
      · rw [if_pos hb]
        exact ih _ _
      · rw [if_neg hb]
        simp only [List.map_cons, List.length_cons, List.range']
        rw [ih _ _]
    · rw [if_neg hi]
      simp

theorem sendSteps_reach (buffered : Nat → Nat) (hwm n : Nat) :
    ∀ (j fuel t i : Nat), i < n → buffered (t + j) ≤ hwm → j < fuel →
      ∃ j₀, j₀ ≤ j ∧ sendSteps buffered hwm n fuel t i =
        (t + j₀, i) ::
          sendSteps buffered hwm n (fuel - (j₀ + 1)) (t + j₀ + 1) (i + 1) := by
  intro j
  induction j with
  | zero =>
    intro fuel t i hi hb hf
    refine ⟨0, Nat.le_refl 0, ?_⟩
    cases fuel with
    | zero => omega
    | succ f =>
      have hb' : buffered t ≤ hwm := by simpa using hb
      simp only [sendSteps, if_pos hi]
      rw [if_neg (by omega : ¬ buffered t > hwm)]
      simp
  | succ j ih =>
    intro fuel t i hi hb hf
    by_cases hbt : buffered t > hwm
    · cases fuel with
      | zero => omega
      | succ f =>
        have hb' : buffered (t + 1 + j) ≤ hwm := by
          have : t + 1 + j = t + (j + 1) := by omega
          rw [this]
          exact hb
        obtain ⟨j₀, hj₀, heq⟩ := ih f (t + 1) i hi hb' (by omega)
        refine ⟨j₀ + 1, by omega, ?_⟩
        simp only [sendSteps, if_pos hi, if_pos hbt]
        rw [heq]
        have h1 : t + 1 + j₀ = t + (j₀ + 1) := by omega
        have h2 : f - (j₀ + 1) = f + 1 - (j₀ + 1 + 1) := by omega
        rw [h1, h2]
    · refine ⟨0, by omega, ?_⟩
      cases fuel with
      | zero => omega
      | succ f =>
        simp only [sendSteps, if_pos hi, if_neg hbt]
        simp

theorem sendSteps_complete (buffered : Nat → Nat) (hwm n w : Nat)
    (hdrain : ∀ t, ∃ j, j ≤ w ∧ buffered (t + j) ≤ hwm) :
    ∀ (m fuel t i : Nat), n - i = m → m * (w + 1) ≤ fuel →
      (sendSteps buffered hwm n fuel t i).map Prod.snd = List.range' i m := by
  intro m
  induction m with
  | zero =>
    intro fuel t i hm hf
    have hi : ¬ i < n := by omega
    cases fuel with
    | zero => simp [sendSteps]
    | succ f =>
      simp [sendSteps, if_neg hi]
  | succ m ih =>
    intro fuel t i hm hf
    have hi : i < n := by omega
    obtain ⟨j, hj, hb⟩ := hdrain t
    have hmul : (m + 1) * (w + 1) = m * (w + 1) + (w + 1) := by ring
    have hjf : j < fuel := by omega
    obtain ⟨j₀, hj₀, heq⟩ := sendSteps_reach buffered hwm n j fuel t i hi hb hjf
    rw [heq]
    simp only [List.map_cons]
    rw [ih (fuel - (j₀ + 1)) (t + j₀ + 1) (i + 1) (by omega) (by omega)]
    rfl

/-- Concatenating the 16 KiB slices of a file, in index order, recovers
the file. -/
theorem flatten_fileChunkData (bytes : List Nat) :
    ((List.range (FileTransfer.totalChunksOf bytes.length sendChunkSize)).map
      (fileChunkData bytes)).flatten = bytes := by
  have hC : 0 < sendChunkSize := by decide
  have hcong : (List.range (FileTransfer.totalChunksOf bytes.length
      sendChunkSize)).map (fileChunkData bytes) =
      (List.range (FileTransfer.totalChunksOf bytes.length sendChunkSize)).map
        (fun i => (bytes.drop (i * sendChunkSize)).take sendChunkSize) := by
    apply List.map_congr_left
    intro i hi
    have hi' := List.mem_range.mp hi
    exact FileTransfer.slice_take_eq bytes (i * sendChunkSize) sendChunkSize
      (Nat.le_of_lt (FileTransfer.lt_total_mul bytes.length sendChunkSize i hC hi'))
  rw [hcong]
  exact FileTransfer.flatten_slices sendChunkSize hC bytes

/-- C7: in the chunked send loop, no chunk is ever handed to the channel
while the buffered byte count exceeds the 16 MiB high-water mark; the
chunks a run does send are consecutive from the first pending index —
none skipped, none duplicated, stalls only delay them; whenever the
buffered amount always drains within some bounded number of waits, a long
enough run sends every chunk of the file exactly once, in order; and the
chunk payloads concatenated in index order are exactly the file. -/
theorem backpressure_contract :
    (∀ (buffered : Nat → Nat) (n fuel t i : Nat) (p : Nat × Nat),
      p ∈ sendSteps buffered bufferedAmountLimit n fuel t i →
      buffered p.1 ≤ bufferedAmountLimit)
    ∧ (∀ (buffered : Nat → Nat) (n fuel t i : Nat),
      (sendSteps buffered bufferedAmountLimit n fuel t i).map Prod.snd =
        List.range' i
          (sendSteps buffered bufferedAmountLimit n fuel t i).length)
    ∧ (∀ (buffered : Nat → Nat) (bytes : List Nat) (w fuel : Nat),
      (∀ t, ∃ j, j ≤ w ∧ buffered (t + j) ≤ bufferedAmountLimit) →
      FileTransfer.totalChunksOf bytes.length sendChunkSize * (w + 1) ≤ fuel →
      (sendSteps buffered bufferedAmountLimit
          (FileTransfer.totalChunksOf bytes.length sendChunkSize)
          fuel 0 0).map Prod.snd =
        List.range (FileTransfer.totalChunksOf bytes.length sendChunkSize))
    ∧ (∀ bytes : List Nat,
      ((List.range (FileTransfer.totalChunksOf bytes.length sendChunkSize)).map
        (fileChunkData bytes)).flatten = bytes) := by
  refine ⟨?_, ?_, ?_, flatten_fileChunkData⟩
  · intro buffered n fuel t i p hp
    exact sendSteps_drained buffered bufferedAmountLimit n fuel t i p hp
  · intro buffered n fuel t i
    exact sendSteps_indices buffered bufferedAmountLimit n fuel t i
  · intro buffered bytes w fuel hdrain hfuel
    rw [List.range_eq_range']
    exact sendSteps_complete buffered bufferedAmountLimit
      (FileTransfer.totalChunksOf bytes.length sendChunkSize) w hdrain
      (FileTransfer.totalChunksOf bytes.length sendChunkSize) fuel 0 0
      (by omega) hfuel

end WebRTC
